import Mathlib

/-!
Shallow embedding of the comment-tree core of `src/hn_flat.py`
(Comment data model, tree builder, metrics, renderer, condensation engine)
together with proofs settling the frozen claims about it.

Modelling conventions:
- Python objects are modelled as values of a mutual inductive type.  Each
  `Comment` carries a `tag : Nat` that models Python object identity
  (the result of `id(obj)`): the `is` operator is tag equality, and
  `copy.deepcopy` produces structurally equal nodes with fresh tags.
  `tag` is NOT a field of the Python dataclass, so the dataclass
  `__eq__` (used by `list.remove` and the `in` operator) is modelled by
  `eqvC`/`eqvL`, structural equality that ignores tags.
- Python `float` arithmetic on weights and rates is modelled with exact
  rationals.  Every claim settled here is insensitive to rounding: the
  concrete counterexamples use small integers where binary floating
  point is exact, and the universally quantified theorems do not depend
  on the outcome of any rate or weight comparison.
- Python `str(n)` for a nonnegative integer is modelled by `natStr`, a
  decimal rendering defined from scratch so that it is structurally
  recursive and computable by the kernel.
- The in-place mutation `siblings.remove(leaf)` is modelled by locating
  the parent list through the parent tag in the current forest value and
  removing the first structurally equal element, which is exactly what
  the Python code does to the object graph.
-/

namespace HnFlat

mutual

inductive Comment : Type where
  | mk (tag : Nat) (id : String) (author : String) (text : String)
       (indent : Int) (children : CommentList)
  deriving DecidableEq

inductive CommentList : Type where
  | nil : CommentList
  | cons (head : Comment) (tail : CommentList) : CommentList
  deriving DecidableEq

end

def Comment.tag : Comment → Nat
  | .mk t _ _ _ _ _ => t

def Comment.id : Comment → String
  | .mk _ i _ _ _ _ => i

def Comment.author : Comment → String
  | .mk _ _ a _ _ _ => a

def Comment.text : Comment → String
  | .mk _ _ _ x _ _ => x

def Comment.indent : Comment → Int
  | .mk _ _ _ _ d _ => d

def Comment.children : Comment → CommentList
  | .mk _ _ _ _ _ ch => ch

/-- List append on `CommentList`. -/
def appendL : CommentList → CommentList → CommentList
  | .nil, l => l
  | .cons c cs, l => .cons c (appendL cs l)

/-- Append a single comment at the end of a list (Python `list.append`). -/
def snocL (l : CommentList) (c : Comment) : CommentList :=
  appendL l (.cons c .nil)

/-- Number of elements of the list itself (Python `len`). -/
def lengthL : CommentList → Nat
  | .nil => 0
  | .cons _ cs => 1 + lengthL cs

/-- Total number of nodes in the forest, including all descendants. -/
def countL : CommentList → Nat
  | .nil => 0
  | .cons (.mk _ _ _ _ _ ch) cs => 1 + countL ch + countL cs

def toListL : CommentList → List Comment
  | .nil => []
  | .cons c cs => c :: toListL cs

/-- Membership of a comment in a `CommentList` (top level only). -/
def memL (x : Comment) : CommentList → Prop
  | .nil => False
  | .cons c cs => x = c ∨ memL x cs

instance memLDecidable (x : Comment) : (l : CommentList) → Decidable (memL x l)
  | .nil => isFalse (fun h => h)
  | .cons c cs =>
    match decEq x c with
    | isTrue h => isTrue (Or.inl h)
    | isFalse h =>
      match memLDecidable x cs with
      | isTrue h2 => isTrue (Or.inr h2)
      | isFalse h2 => isFalse (fun h3 => h3.elim h h2)

/-! ### String helpers (models of the Python string operations used) -/

/-- One decimal digit as a character. -/
def digitChar (d : Nat) : Char :=
  Char.ofNat (48 + d)

/-- Little-endian decimal digits of `n`, with explicit fuel so that the
definition is structurally recursive.  `fuel > n` guarantees the fuel is
never exhausted. -/
def digitsAux : Nat → Nat → List Char
  | 0, _ => []
  | fuel + 1, n => if n < 10 then [digitChar n] else digitChar (n % 10) :: digitsAux fuel (n / 10)

/-- Model of Python `str(n)` for a nonnegative integer `n`. -/
def natStr (n : Nat) : String :=
  String.mk (digitsAux (n + 1) n).reverse

/-- Model of Python `"  " * depth`. -/
def indentStr (depth : Nat) : String :=
  String.mk (List.replicate (2 * depth) ' ')

/-- Model of Python `sep.join(lines)` for a list of strings. -/
def interStr (sep : String) : List String → String
  | [] => ""
  | [s] => s
  | s :: rest => s ++ sep ++ interStr sep rest

/-- Model of Python `text.split(sep)` for a single character separator:
splits a character list at every occurrence, keeping empty pieces. -/
def splitCh (sep : Char) : List Char → List (List Char)
  | [] => [[]]
  | c :: rest =>
    match splitCh sep rest with
    | [] => if c = sep then [[], []] else [[c]]
    | g :: gs => if c = sep then [] :: g :: gs else (c :: g) :: gs

/-- Truthiness of Python `line.strip()`: the line has a non-whitespace
character. -/
def hasNonWS (l : List Char) : Bool :=
  l.any (fun c => !c.isWhitespace)

/-! ### Metrics (`Comment.descendant_count`, `weight`, `depth`, `is_leaf`) -/

/-- Source `Comment.descendant_count`: `len(children)` plus the
descendant counts of the children, i.e. the total number of nodes in the
child forest.  `countL` computes exactly that sum. -/
def descendant_count (c : Comment) : Nat :=
  countL c.children

/-- Source `Comment.weight`:
`(self.descendant_count() + 1) * len(self.text) / 10` with Python float
division modelled exactly on rationals.  Written with `mkRat` so that
the kernel can evaluate it; `weight_eq_div` states the division form. -/
def weight (c : Comment) : ℚ :=
  mkRat (((descendant_count c + 1) * c.text.length : Nat) : Int) 10

/-- Source `Comment.depth`: `self.indent // 40`, Python floor division. -/
def Comment.depth (c : Comment) : Int :=
  Int.fdiv c.indent 40

/-- Source `Comment.is_leaf`: `len(self.children) == 0`. -/
def is_leaf (c : Comment) : Bool :=
  match c.children with
  | .nil => true
  | .cons _ _ => false

/-! ### Renderer (`format_comment_text`, `render_markdown`) -/

/-- Source `format_comment_text`: the first line is kept as is, later
lines are indented under the list bullet unless blank. -/
def format_comment_text (text : String) (indent_str : String) : String :=
  match splitCh '\n' text.data with
  | [] => ""
  | first :: rest =>
    interStr "\n" (String.mk first ::
      rest.map (fun l => if hasNonWS l then indent_str ++ "  " ++ String.mk l else ""))

/-- The `" [+N]"` marker: present only when the descendant count is
positive. -/
def countStr (n : Nat) : String :=
  if 0 < n then " [+" ++ natStr n ++ "]" else ""

/-- The single markdown line of one comment at a given depth. -/
def commentLine (depth : Nat) (c : Comment) : String :=
  indentStr depth ++ "- @" ++ c.author ++ countStr (descendant_count c) ++ ": " ++
    format_comment_text c.text (indentStr depth)

/-- The list of entries that the source `render_markdown` joins with
newlines: one line per comment, followed by the block of its rendered
children when it has any. -/
def renderLines (depth : Nat) : CommentList → List String
  | .nil => []
  | .cons (.mk t i a x ind ch) cs =>
    let c := Comment.mk t i a x ind ch
    let line := commentLine depth c
    match ch with
    | .nil => line :: renderLines depth cs
    | .cons _ _ => line :: interStr "\n" (renderLines (depth + 1) ch) :: renderLines depth cs

/-- Source `render_markdown`. -/
def render_markdown (comments : CommentList) (depth : Nat) : String :=
  interStr "\n" (renderLines depth comments)

/-! ### Tree builder (`build_comment_tree`)

The Python loop keeps a stack of open ancestors and attaches each new
comment to the stack top after popping entries whose indent is `>=` the
incoming indent.  Python attaches a child object at push time and keeps
filling its `children` list while it sits on the stack; the functional
rendition below attaches a node to the element directly beneath it at
the moment it is popped, which yields the same final object graph
because the element beneath a node never changes while the node is on
the stack.  The stack is kept top-first. -/

/-- Attach a child at the end of the children list of a parent. -/
def appendChild (p c : Comment) : Comment :=
  match p with
  | .mk t i a x ind ch => .mk t i a x ind (snocL ch c)

/-- A node `child` has just been popped: attach it to the node beneath
it (or emit it as a finished root when the stack is empty), then keep
popping while the new top still has indent `>= ind`. -/
def attachDown (ind : Int) (child : Comment) :
    List Comment → CommentList → List Comment × CommentList
  | [], roots => ([], snocL roots child)
  | p :: rest, roots =>
    if ind ≤ (appendChild p child).indent then
      attachDown ind (appendChild p child) rest roots
    else (appendChild p child :: rest, roots)

/-- Pop the stack while its top has indent `>= ind`
(the loop `while stack and stack[-1].indent >= comment.indent`). -/
def popGE (ind : Int) (stack : List Comment) (roots : CommentList) :
    List Comment × CommentList :=
  match stack with
  | [] => ([], roots)
  | top :: rest =>
    if ind ≤ top.indent then attachDown ind top rest roots else (top :: rest, roots)

/-- Flush the remaining stack at the end of the input: every entry pops,
attaching to the element beneath it, the bottom entries becoming roots. -/
def flushAux (child : Comment) : List Comment → CommentList → CommentList
  | [], roots => snocL roots child
  | p :: rest, roots => flushAux (appendChild p child) rest roots

def flushAll (stack : List Comment) (roots : CommentList) : CommentList :=
  match stack with
  | [] => roots
  | top :: rest => flushAux top rest roots

/-- The builder loop over the record sequence. -/
def buildLoop (records : CommentList) (stack : List Comment) (roots : CommentList) :
    CommentList :=
  match records with
  | .nil => flushAll stack roots
  | .cons c rest =>
    let sr := popGE c.indent stack roots
    buildLoop rest (c :: sr.1) sr.2

/-- Source `build_comment_tree`. -/
def build_comment_tree (flat_comments : CommentList) : CommentList :=
  buildLoop flat_comments [] .nil

/-! ### Leaf collection, identity search and sort key -/

/-- Source `get_all_leaves`: every leaf paired with its parent
(`none` for a top-level leaf, whose sibling list is the root list). -/
def get_all_leaves (comments : CommentList) (parent : Option Comment) :
    List (Comment × Option Comment) :=
  match comments with
  | .nil => []
  | .cons (.mk t i a x ind ch) cs =>
    match ch with
    | .nil => (Comment.mk t i a x ind ch, parent) :: get_all_leaves cs parent
    | .cons _ _ =>
      get_all_leaves ch (some (Comment.mk t i a x ind ch)) ++ get_all_leaves cs parent

/-- Source `find_depth` inside `leaf_sort_key`: a pre-order search for
the object `target` (the Python `is` operator, i.e. tag equality),
returning its depth, or `-1` when the object does not occur. -/
def find_depth (comments : CommentList) (target : Comment) (d : Int) : Int :=
  match comments with
  | .nil => -1
  | .cons (.mk t _ _ _ _ ch) cs =>
    if t = target.tag then d
    else
      let r : Int :=
        match ch with
        | .nil => -1
        | .cons _ _ => find_depth ch target (d + 1)
      if 0 ≤ r then r else find_depth cs target d

/-- Source `leaf_sort_key`: `(weight, -depth)` where the depth is `0`
for a top-level leaf and otherwise the result of searching the ORIGINAL
forest `root_comments` for the deep-copied leaf object. -/
def leaf_sort_key (root_comments : CommentList) (leaf_info : Comment × Option Comment) :
    ℚ × Int :=
  let w := weight leaf_info.1
  let depth : Int :=
    match leaf_info.2 with
    | none => 0
    | some _ => find_depth root_comments leaf_info.1 0
  (w, -depth)

/-- Lexicographic comparison of sort keys, the order used by the Python
stable `list.sort(key=leaf_sort_key)`. -/
def leafLe (root_comments : CommentList) (a b : Comment × Option Comment) : Prop :=
  (leaf_sort_key root_comments a).1 < (leaf_sort_key root_comments b).1 ∨
    ((leaf_sort_key root_comments a).1 = (leaf_sort_key root_comments b).1 ∧
      (leaf_sort_key root_comments a).2 ≤ (leaf_sort_key root_comments b).2)

instance leafLeDecidable (root_comments : CommentList) :
    DecidableRel (leafLe root_comments) := fun _ _ => by
  unfold leafLe; infer_instance

/-- Python `list.sort` is a stable ascending sort; `List.insertionSort`
with the same total preorder computes the same (unique) stable result. -/
def sortLeaves (root_comments : CommentList) (leaves : List (Comment × Option Comment)) :
    List (Comment × Option Comment) :=
  List.insertionSort (leafLe root_comments) leaves

/-! ### Structural equality ignoring tags (the Python dataclass eq) -/

mutual

/-- Python `==` on `Comment` (dataclass field equality, recursing into
children); object tags are an identity model and are ignored. -/
def eqvC : Comment → Comment → Bool
  | .mk _ i a x d ch, .mk _ i2 a2 x2 d2 ch2 =>
    i = i2 && a = a2 && x = x2 && d = d2 && eqvL ch ch2

/-- Python `==` on lists of comments. -/
def eqvL : CommentList → CommentList → Bool
  | .nil, .nil => true
  | .cons c cs, .cons c2 cs2 => eqvC c c2 && eqvL cs cs2
  | _, _ => false

end

/-! ### Removal of a leaf from its recorded sibling list -/

/-- Python `siblings.remove(leaf)` guarded by `leaf in siblings`:
remove the first element `==` to `leaf`; no change when none is. -/
def removeFirstEqv (leaf : Comment) : CommentList → CommentList
  | .nil => .nil
  | .cons c cs => if eqvC c leaf then cs else .cons c (removeFirstEqv leaf cs)

/-- Perform the removal inside the children list of the node with the
given tag (the sibling list recorded for a non-top-level leaf).  The
boolean reports whether the node was found, so that the pre-order-first
node with the tag, and only it, is updated. -/
def removeAtTag (pt : Nat) (leaf : Comment) : CommentList → CommentList × Bool
  | .nil => (.nil, false)
  | .cons (.mk t i a x ind ch) cs =>
    if t = pt then (.cons (.mk t i a x ind (removeFirstEqv leaf ch)) cs, true)
    else
      let r := removeAtTag pt leaf ch
      if r.2 then (.cons (.mk t i a x ind r.1) cs, true)
      else
        let r2 := removeAtTag pt leaf cs
        (.cons (.mk t i a x ind ch) r2.1, r2.2)

/-- Remove one batch candidate from the current forest: from the root
list when it has no parent, otherwise from the children of the node that
is the recorded parent object (located by its tag). -/
def removeCand (comments : CommentList) (cand : Comment × Option Comment) : CommentList :=
  match cand.2 with
  | none => removeFirstEqv cand.1 comments
  | some p => (removeAtTag p.tag cand.1 comments).1

/-- The removal loop over the first `min(step_size, len(leaves))`
sorted candidates. -/
def batchRemove (cands : List (Comment × Option Comment)) (comments : CommentList) :
    CommentList :=
  cands.foldl removeCand comments

/-! ### Deep copy (`copy.deepcopy`): same structure, fresh object tags -/

/-- All object tags of a forest, in pre-order. -/
def tagsL : CommentList → List Nat
  | .nil => []
  | .cons (.mk t _ _ _ _ ch) cs => t :: (tagsL ch ++ tagsL cs)

def listMax : List Nat → Nat
  | [] => 0
  | n :: rest => max n (listMax rest)

def maxTagL (l : CommentList) : Nat :=
  listMax (tagsL l)

/-- Reassign fresh tags in pre-order starting at `base`; the second
component is the next unused tag. -/
def retagL (base : Nat) : CommentList → CommentList × Nat
  | .nil => (.nil, base)
  | .cons (.mk _ i a x d ch) cs =>
    let r1 := retagL (base + 1) ch
    let r2 := retagL r1.2 cs
    (.cons (.mk base i a x d r1.1) r2.1, r2.2)

/-- Model of `copy.deepcopy(root_comments)`: a structurally identical
forest of fresh objects, with tags disjoint from every live object tag
of the input. -/
def deepcopyL (l : CommentList) : CommentList :=
  (retagL (maxTagL l + 1) l).1

/-! ### Condensation engine (`condense_comments`) -/

/-- Result of one iteration of the `while True` loop. -/
inductive StepResult : Type where
  | done (comments : CommentList) : StepResult
  | next (comments : CommentList) : StepResult

/-- The rate `current_length / original_length`, defined as `1.0` when
the original length is zero.  Written with `mkRat` so that the kernel
can evaluate it; `currentRate_eq_div` states the division form. -/
def currentRate (original_length current_length : Nat) : ℚ :=
  if 0 < original_length then mkRat (current_length : Int) original_length else 1

/-- One iteration of the condensation loop: recompute the rendered
length and rate, break on success or when no leaves remain, otherwise
sort the leaves and remove the first `min(step_size, len(leaves))` of
them.  The loop locals of the source are written inline. -/
def condenseStep (root_comments : CommentList) (original_length : Nat)
    (target_rate : ℚ) (step_size : Int) (comments : CommentList) : StepResult :=
  if currentRate original_length (render_markdown comments 0).length ≤ target_rate then
    .done comments
  else
    match get_all_leaves comments none with
    | [] => .done comments
    | hd :: tl =>
      .next (batchRemove ((sortLeaves root_comments (hd :: tl)).take
        (min step_size ((hd :: tl).length : Int)).toNat) comments)

/-- The loop with fuel, returning the current forest if the fuel runs
out.  For `step_size >= 1` the fuel `countL comments + 1` is never
exhausted (see the termination theorem), so this equals the Python
loop. -/
def condenseLoop (root_comments : CommentList) (original_length : Nat)
    (target_rate : ℚ) (step_size : Int) : Nat → CommentList → CommentList
  | 0, comments => comments
  | fuel + 1, comments =>
    match condenseStep root_comments original_length target_rate step_size comments with
    | .done r => r
    | .next c => condenseLoop root_comments original_length target_rate step_size fuel c

/-- The loop with fuel, `none` when the fuel is exhausted before the
loop breaks: `isSome` states that the Python loop terminates within the
given number of iterations. -/
def condenseLoopO (root_comments : CommentList) (original_length : Nat)
    (target_rate : ℚ) (step_size : Int) : Nat → CommentList → Option CommentList
  | 0, _ => none
  | fuel + 1, comments =>
    match condenseStep root_comments original_length target_rate step_size comments with
    | .done r => some r
    | .next c => condenseLoopO root_comments original_length target_rate step_size fuel c

/-- Source `condense_comments`: deep-copy the forest, render it to fix
the original length, then prune until the target rate is reached. -/
def condense_comments (root_comments : CommentList) (target_rate : ℚ)
    (step_size : Int) : CommentList :=
  let comments := deepcopyL root_comments
  let original_length := (render_markdown comments 0).length
  condenseLoop root_comments original_length target_rate step_size
    (countL comments + 1) comments

/-- The same function with explicit termination reporting. -/
def condense_commentsO (root_comments : CommentList) (target_rate : ℚ)
    (step_size : Int) : Option CommentList :=
  let comments := deepcopyL root_comments
  let original_length := (render_markdown comments 0).length
  condenseLoopO root_comments original_length target_rate step_size
    (countL comments + 1) comments

/-! ### Definitions used to state the claims -/

/-- Flattening by pre-order traversal, recording each node depth as the
indent (one indent unit per level), as the round-trip claim describes:
the emitted records are childless. -/
def flattenL (d : Int) : CommentList → CommentList
  | .nil => .nil
  | .cons (.mk t i a x _ ch) cs =>
    .cons (.mk t i a x d .nil) (appendL (flattenL (d + 1) ch) (flattenL d cs))

mutual

/-- Structural identity of two forests: same nodes (tag and payload),
same parent and child relationships, same sibling order.  The indent
field is not compared, because flattening rewrites indents to depths. -/
def shapeEqC : Comment → Comment → Bool
  | .mk t i a x _ ch, .mk t2 i2 a2 x2 _ ch2 =>
    t = t2 && i = i2 && a = a2 && x = x2 && shapeEqL ch ch2

def shapeEqL : CommentList → CommentList → Bool
  | .nil, .nil => true
  | .cons c cs, .cons c2 cs2 => shapeEqC c c2 && shapeEqL cs cs2
  | _, _ => false

end

/-- Every child of the head node has indent strictly greater than
`ind`. -/
def childrenGT (ind : Int) : CommentList → Bool
  | .nil => true
  | .cons (.mk _ _ _ _ i _) cs => decide (ind < i) && childrenGT ind cs

/-- The strict-indent tree invariant: every node has all of its
children at an indent strictly greater than its own, recursively. -/
def strictL : CommentList → Bool
  | .nil => true
  | .cons (.mk _ _ _ _ ind ch) cs => childrenGT ind ch && strictL ch && strictL cs

/-- The input sequence is a sequence of records: no node carries
pre-built children. -/
def allChildless : CommentList → Bool
  | .nil => true
  | .cons (.mk _ _ _ _ _ .nil) cs => allChildless cs
  | .cons _ _ => false

/-- Strip the children of a node, keeping the record part. -/
def stripC : Comment → Comment
  | .mk t i a x d _ => .mk t i a x d .nil

/-- The record parts of the nodes of a forest, in pre-order. -/
def preRecL : CommentList → List Comment
  | .nil => []
  | .cons (.mk t i a x d ch) cs =>
    Comment.mk t i a x d .nil :: (preRecL ch ++ preRecL cs)

/-- The record part of one node followed by the record parts of its
subtree, in pre-order. -/
def preRecC (c : Comment) : List Comment :=
  match c with
  | .mk t i a x d ch => Comment.mk t i a x d .nil :: preRecL ch

/-- The record parts still held on the builder stack (top first): the
eventual flush emits the bottom entries first. -/
def stackRecs : List Comment → List Comment
  | [] => []
  | top :: rest => stackRecs rest ++ preRecC top

/-- The flattened records of a single tree. -/
def flattenC (d : Int) (c : Comment) : CommentList :=
  match c with
  | .mk t i a x _ ch => .cons (.mk t i a x d .nil) (flattenL (d + 1) ch)

/-- All object tags of the forest are distinct. -/
def NodupTags (l : CommentList) : Prop :=
  (tagsL l).Nodup

instance (l : CommentList) : Decidable (NodupTags l) :=
  List.nodupDecidable (tagsL l)

/-- A specific node object occurring anywhere in a forest. -/
def nodeIn (p : Comment) : CommentList → Prop
  | .nil => False
  | .cons (.mk t i a x d ch) cs =>
    p = Comment.mk t i a x d ch ∨ nodeIn p ch ∨ nodeIn p cs

/-! ### Proof devices for the builder round trip -/

mutual

/-- The tree rebuilt from the flattened records of `c`, with indents
rewritten to depths starting at `d`. -/
def fullC (d : Int) : Comment → Comment
  | .mk t i a x _ ch => .mk t i a x d (fullL (d + 1) ch)

def fullL (d : Int) : CommentList → CommentList
  | .nil => .nil
  | .cons c cs => .cons (fullC d c) (fullL d cs)

end

mutual

/-- The stack segment (top first) that the builder holds right after
consuming the flattened records of one tree at depth `d`: the rightmost
path of the tree, each node holding the children already completed. -/
def spineC (d : Int) : Comment → List Comment
  | .mk t i a x _ ch => spineAux d (Comment.mk t i a x d .nil) ch

def spineAux (d : Int) (part : Comment) : CommentList → List Comment
  | .nil => [part]
  | .cons c .nil => spineC (d + 1) c ++ [part]
  | .cons c (.cons c2 cs2) =>
    spineAux d (appendChild part (fullC (d + 1) c)) (.cons c2 cs2)

end

/-- The flattened record of one node: its payload with the indent
rewritten to the given depth and no children. -/
def recordAt (d : Int) (c : Comment) : Comment :=
  match c with
  | .mk t i a x _ _ => .mk t i a x d .nil

/-- Attach a whole list of finished children at the end of the children
list of a node. -/
def appendChildren (p : Comment) (l : CommentList) : Comment :=
  match p with
  | .mk t i a x ind ch => .mk t i a x ind (appendL ch l)

/-! ### Proof device for render-length monotonicity -/

/-- One list of rendered entries dominates another: entries of the
smaller list line up, in order, with entries of at least their length in
the larger list. -/
inductive LinesLe : List String → List String → Prop where
  | nil : ∀ l, LinesLe [] l
  | cons : ∀ {a b xs ys}, a.length ≤ b.length → LinesLe xs ys → LinesLe (a :: xs) (b :: ys)
  | skip : ∀ {xs ys} (b : String), LinesLe xs ys → LinesLe xs (b :: ys)

/-- The builder stack invariant pieces: a node all of whose current
children sit strictly deeper than it, with strict subtrees. -/
def NodeOK (c : Comment) : Prop :=
  childrenGT c.indent c.children = true ∧ strictL c.children = true

/-- The builder stack (top first): every entry is sound and entries
strictly increase in indent from bottom to top. -/
def StackInv : List Comment → Prop
  | [] => True
  | [x] => NodeOK x
  | x :: y :: r => NodeOK x ∧ y.indent < x.indent ∧ StackInv (y :: r)

/-- A removal candidate is valid for the current forest: a top-level
element when it has no recorded parent, otherwise an element of the
children of its recorded parent object, which occurs in the forest. -/
def validCand (comments : CommentList) (cand : Comment × Option Comment) : Prop :=
  (cand.2 = none ∧ memL cand.1 comments) ∨
    ∃ p, cand.2 = some p ∧ nodeIn p comments ∧ memL cand.1 p.children

/-! ### Concrete fixtures used by counterexamples and witnesses -/

/-- A deep leaf: weight `8/10`, structural depth 1. -/
def exB : Comment := .mk 2 "b" "bob" "deepleaf" 40 .nil

/-- Its parent, a top-level comment. -/
def exA : Comment := .mk 1 "a" "alice" "parent comment text here ok yes" 0 (.cons exB .nil)

/-- A top-level leaf with the same weight `8/10` as `exB` but
structural depth 0. -/
def exC : Comment := .mk 3 "c" "carol" "rootleaf" 0 .nil

/-- A forest holding two equal-weight leaves at different depths. -/
def exForest : CommentList := .cons exA (.cons exC .nil)

/-- A one-comment forest. -/
def exSingle : CommentList := .cons (.mk 1 "a" "alice" "hello" 0 .nil) .nil

/-- A record sequence with irregular indent jumps (childless). -/
def exRecords : CommentList :=
  .cons (.mk 1 "r1" "u1" "one" 0 .nil)
    (.cons (.mk 2 "r2" "u2" "two" 80 .nil)
      (.cons (.mk 3 "r3" "u3" "three" 40 .nil)
        (.cons (.mk 4 "r4" "u4" "four" 40 .nil)
          (.cons (.mk 5 "r5" "u5" "five" 0 .nil) .nil))))

/-- A comment with a negative indent. -/
def exNeg : Comment := .mk 7 "n" "nancy" "negative" (-1) .nil

/-! ## Theorems -/

/-! ### Induction principles -/

theorem commPair_ind (P : Comment → Prop) (Q : CommentList → Prop)
    (hmk : ∀ t i a x d ch, Q ch → P (.mk t i a x d ch))
    (hnil : Q .nil)
    (hcons : ∀ c cs, P c → Q cs → Q (.cons c cs)) :
    (∀ c, P c) ∧ ∀ l, Q l :=
  ⟨fun c => @Comment.rec P Q hmk hnil hcons c,
   fun l => @CommentList.rec P Q hmk hnil hcons l⟩

theorem commList_ind (Q : CommentList → Prop) (hnil : Q .nil)
    (hcons : ∀ c cs, Q cs → Q (.cons c cs)) : ∀ l, Q l :=
  (commPair_ind (fun _ => True) Q (fun _ _ _ _ _ _ _ => trivial) hnil
    (fun c cs _ h => hcons c cs h)).2

/-! ### List basics -/

theorem appendL_nil : ∀ l, appendL l .nil = l := by
  refine commList_ind _ rfl ?_
  intro c cs ih
  simp [appendL, ih]

theorem appendL_assoc : ∀ a, ∀ b c, appendL (appendL a b) c = appendL a (appendL b c) := by
  refine commList_ind _ (fun _ _ => rfl) ?_
  intro x xs ih b c
  simp [appendL, ih]

theorem preRecL_cons (c : Comment) (cs : CommentList) :
    preRecL (.cons c cs) = preRecC c ++ preRecL cs := by
  cases c
  simp [preRecL, preRecC]

theorem preRecL_append : ∀ l1, ∀ l2, preRecL (appendL l1 l2) = preRecL l1 ++ preRecL l2 := by
  refine commList_ind _ (fun _ => rfl) ?_
  intro c cs ih l2
  cases c
  simp [appendL, preRecL, ih]

theorem preRecL_snoc (l : CommentList) (c : Comment) :
    preRecL (snocL l c) = preRecL l ++ preRecC c := by
  unfold snocL
  rw [preRecL_append, preRecL_cons]
  simp [preRecL]

theorem preRecC_appendChild (p c : Comment) :
    preRecC (appendChild p c) = preRecC p ++ preRecC c := by
  cases p
  simp [appendChild, preRecC, preRecL_snoc]

/-! ### The builder visits exactly the input records (claim C10) -/

theorem flushAux_recs : ∀ stack : List Comment, ∀ child roots,
    preRecL (flushAux child stack roots) =
      preRecL roots ++ stackRecs stack ++ preRecC child := by
  intro stack
  induction stack with
  | nil =>
    intro child roots
    simp [flushAux, stackRecs, preRecL_snoc]
  | cons p rest ih =>
    intro child roots
    simp only [flushAux, ih, preRecC_appendChild, stackRecs]
    simp

theorem flushAll_recs (stack : List Comment) (roots : CommentList) :
    preRecL (flushAll stack roots) = preRecL roots ++ stackRecs stack := by
  cases stack with
  | nil => simp [flushAll, stackRecs]
  | cons top rest =>
    simp only [flushAll, flushAux_recs, stackRecs]
    simp

theorem attachDown_recs : ∀ stack : List Comment, ∀ ind child roots,
    preRecL (attachDown ind child stack roots).2 ++
        stackRecs (attachDown ind child stack roots).1 =
      preRecL roots ++ stackRecs stack ++ preRecC child := by
  intro stack
  induction stack with
  | nil =>
    intro ind child roots
    simp [attachDown, stackRecs, preRecL_snoc]
  | cons p rest ih =>
    intro ind child roots
    simp only [attachDown]
    by_cases h : ind ≤ (appendChild p child).indent
    · simp only [if_pos h, ih, preRecC_appendChild, stackRecs]
      simp
    · simp only [if_neg h, stackRecs, preRecC_appendChild]
      simp

theorem popGE_recs (ind : Int) (stack : List Comment) (roots : CommentList) :
    preRecL (popGE ind stack roots).2 ++ stackRecs (popGE ind stack roots).1 =
      preRecL roots ++ stackRecs stack := by
  cases stack with
  | nil => simp [popGE, stackRecs]
  | cons top rest =>
    simp only [popGE]
    by_cases h : ind ≤ top.indent
    · simp only [if_pos h, attachDown_recs, stackRecs]
      simp
    · simp only [if_neg h, stackRecs]

theorem buildLoop_recs : ∀ records : CommentList, ∀ stack roots,
    preRecL (buildLoop records stack roots) =
      preRecL roots ++ stackRecs stack ++ preRecL records := by
  refine commList_ind _ ?_ ?_
  · intro stack roots
    simp [buildLoop, flushAll_recs, preRecL]
  · intro c cs ih stack roots
    simp only [buildLoop, ih, stackRecs, preRecL_cons]
    have h := popGE_recs c.indent stack roots
    calc preRecL (popGE c.indent stack roots).2 ++
          (stackRecs (popGE c.indent stack roots).1 ++ preRecC c) ++ preRecL cs
        = (preRecL (popGE c.indent stack roots).2 ++
            stackRecs (popGE c.indent stack roots).1) ++ (preRecC c ++ preRecL cs) := by
          simp
      _ = (preRecL roots ++ stackRecs stack) ++ (preRecC c ++ preRecL cs) := by rw [h]
      _ = preRecL roots ++ stackRecs stack ++ (preRecC c ++ preRecL cs) := by simp

theorem build_recs (records : CommentList) :
    preRecL (build_comment_tree records) = preRecL records := by
  simp [build_comment_tree, buildLoop_recs, preRecL, stackRecs]

theorem allChildless_preRecL : ∀ l, allChildless l = true → preRecL l = toListL l := by
  refine commList_ind _ (fun _ => rfl) ?_
  intro c cs ih h
  cases c with
  | mk t i a x d ch =>
    cases ch with
    | nil =>
      simp only [allChildless] at h
      simp [preRecL, toListL, ih h]
    | cons c2 cs2 => simp [allChildless] at h

/-! ### The builder round trip (claim C3) -/

theorem appendChild_indent (p c : Comment) : (appendChild p c).indent = p.indent := by
  cases p
  rfl

theorem appendL_snoc (l : CommentList) (c : Comment) (l2 : CommentList) :
    appendL (snocL l c) l2 = appendL l (.cons c l2) := by
  unfold snocL
  rw [appendL_assoc]
  rfl

theorem appendChildren_nil (q : Comment) : appendChildren q .nil = q := by
  cases q
  simp [appendChildren, appendL_nil]

theorem appendChildren_snoc (q y : Comment) (l : CommentList) :
    appendChildren (appendChild q y) l = appendChildren q (.cons y l) := by
  cases q
  simp [appendChildren, appendChild, appendL_snoc]

theorem flattenL_cons (d : Int) (c : Comment) (cs : CommentList) :
    flattenL d (.cons c cs) = appendL (flattenC d c) (flattenL d cs) := by
  cases c
  rfl

theorem flattenC_eq (d : Int) (c : Comment) :
    flattenC d c = .cons (recordAt d c) (flattenL (d + 1) c.children) := by
  cases c
  rfl

theorem recordAt_indent (d : Int) (c : Comment) : (recordAt d c).indent = d := by
  cases c
  rfl

theorem spineAux_cons2 (d : Int) (p c c2 : Comment) (cs2 : CommentList) :
    spineAux d p (.cons c (.cons c2 cs2)) =
      spineAux d (appendChild p (fullC (d + 1) c)) (.cons c2 cs2) := rfl

theorem popGE_spine :
    (∀ c : Comment, ∀ d e : Int, ∀ rest roots, e ≤ d →
      popGE e (spineC d c ++ rest) roots = attachDown e (fullC d c) rest roots) ∧
    ∀ ts : CommentList, ∀ d e : Int, ∀ q : Comment, ∀ rest roots,
      q.indent = d → e ≤ d →
      popGE e (spineAux d q ts ++ rest) roots =
        attachDown e (appendChildren q (fullL (d + 1) ts)) rest roots := by
  refine commPair_ind
    (fun c => ∀ d e : Int, ∀ rest roots, e ≤ d →
      popGE e (spineC d c ++ rest) roots = attachDown e (fullC d c) rest roots)
    (fun ts => ∀ d e : Int, ∀ q : Comment, ∀ rest roots, q.indent = d → e ≤ d →
      popGE e (spineAux d q ts ++ rest) roots =
        attachDown e (appendChildren q (fullL (d + 1) ts)) rest roots)
    ?_ ?_ ?_
  · intro t i a x ind ch ihch d e rest roots he
    have h := ihch d e (Comment.mk t i a x d .nil) rest roots rfl he
    simpa [spineC, fullC, appendChildren, appendL] using h
  · intro d e q rest roots hq he
    simp only [spineAux, List.singleton_append, popGE]
    rw [if_pos (by rw [hq]; exact he)]
    rw [show appendChildren q (fullL (d + 1) .nil) = q from by
      simp [fullL, appendChildren_nil]]
  · intro c cs ihc ihcs d e q rest roots hq he
    cases cs with
    | nil =>
      simp only [spineAux, List.append_assoc, List.singleton_append]
      rw [ihc (d + 1) e (q :: rest) roots (by omega)]
      simp only [attachDown]
      rw [if_pos (by rw [appendChild_indent, hq]; exact he)]
      congr 1
    | cons c2 cs2 =>
      simp only [spineAux]
      rw [ihcs d e (appendChild q (fullC (d + 1) c)) rest roots
        (by rw [appendChild_indent, hq]) he]
      rw [appendChildren_snoc]
      rfl

theorem flush_spine :
    (∀ c : Comment, ∀ d : Int, ∀ rest roots,
      flushAll (spineC d c ++ rest) roots = flushAux (fullC d c) rest roots) ∧
    ∀ ts : CommentList, ∀ d : Int, ∀ q : Comment, ∀ rest roots,
      flushAll (spineAux d q ts ++ rest) roots =
        flushAux (appendChildren q (fullL (d + 1) ts)) rest roots := by
  refine commPair_ind
    (fun c => ∀ d : Int, ∀ rest roots,
      flushAll (spineC d c ++ rest) roots = flushAux (fullC d c) rest roots)
    (fun ts => ∀ d : Int, ∀ q : Comment, ∀ rest roots,
      flushAll (spineAux d q ts ++ rest) roots =
        flushAux (appendChildren q (fullL (d + 1) ts)) rest roots)
    ?_ ?_ ?_
  · intro t i a x ind ch ihch d rest roots
    have h := ihch d (Comment.mk t i a x d .nil) rest roots
    simpa [spineC, fullC, appendChildren, appendL] using h
  · intro d q rest roots
    simp only [spineAux, List.singleton_append, flushAll]
    rw [show appendChildren q (fullL (d + 1) .nil) = q from by
      simp [fullL, appendChildren_nil]]
  · intro c cs ihc ihcs d q rest roots
    cases cs with
    | nil =>
      simp only [spineAux, List.append_assoc, List.singleton_append]
      rw [ihc (d + 1) (q :: rest) roots]
      simp only [flushAux]
      congr 1
    | cons c2 cs2 =>
      simp only [spineAux]
      rw [ihcs d (appendChild q (fullC (d + 1) c)) rest roots]
      rw [appendChildren_snoc]
      rfl

theorem buildLoop_flatten :
    (∀ c : Comment, ∀ d : Int, ∀ rest stack roots,
      buildLoop (appendL (flattenC d c) rest) stack roots =
        buildLoop rest (spineC d c ++ (popGE d stack roots).1) (popGE d stack roots).2) ∧
    ∀ ts : CommentList, ∀ d : Int, ∀ p : Comment, ∀ rest stack roots, p.indent = d →
      buildLoop (appendL (flattenL (d + 1) ts) rest) (p :: stack) roots =
        buildLoop rest (spineAux d p ts ++ stack) roots := by
  refine commPair_ind
    (fun c => ∀ d : Int, ∀ rest stack roots,
      buildLoop (appendL (flattenC d c) rest) stack roots =
        buildLoop rest (spineC d c ++ (popGE d stack roots).1) (popGE d stack roots).2)
    (fun ts => ∀ d : Int, ∀ p : Comment, ∀ rest stack roots, p.indent = d →
      buildLoop (appendL (flattenL (d + 1) ts) rest) (p :: stack) roots =
        buildLoop rest (spineAux d p ts ++ stack) roots)
    ?_ ?_ ?_
  · intro t i a x ind ch ihch d rest stack roots
    simp only [flattenC, appendL, buildLoop, Comment.indent]
    rw [ihch d (Comment.mk t i a x d .nil) rest
      (popGE d stack roots).1 (popGE d stack roots).2 rfl]
    rfl
  · intro d p rest stack roots hp
    simp only [flattenL, appendL, spineAux, List.singleton_append]
  · intro c cs ihc ihcs d p rest stack roots hp
    rw [flattenL_cons, appendL_assoc]
    rw [ihc (d + 1) (appendL (flattenL (d + 1) cs) rest) (p :: stack) roots]
    have hpop : popGE (d + 1) (p :: stack) roots = (p :: stack, roots) := by
      simp only [popGE]
      rw [if_neg (by rw [hp]; omega)]
    rw [hpop]
    cases cs with
    | nil =>
      simp only [flattenL, appendL, spineAux]
      simp
    | cons c2 cs2 =>
      have hcollapse : popGE (d + 1) (spineC (d + 1) c ++ p :: stack) roots =
          (appendChild p (fullC (d + 1) c) :: stack, roots) := by
        rw [popGE_spine.1 c (d + 1) (d + 1) (p :: stack) roots (le_refl _)]
        simp only [attachDown]
        rw [if_neg (by rw [appendChild_indent, hp]; omega)]
      have hpop2 : popGE (d + 1) (appendChild p (fullC (d + 1) c) :: stack) roots =
          (appendChild p (fullC (d + 1) c) :: stack, roots) := by
        simp only [popGE]
        rw [if_neg (by rw [appendChild_indent, hp]; omega)]
      have hsplit : appendL (flattenL (d + 1) (.cons c2 cs2)) rest =
          CommentList.cons (recordAt (d + 1) c2)
            (appendL (flattenL (d + 1 + 1) c2.children)
              (appendL (flattenL (d + 1) cs2) rest)) := by
        rw [flattenL_cons, appendL_assoc, flattenC_eq]
        rfl
      rw [hsplit, spineAux_cons2]
      simp only [buildLoop, recordAt_indent]
      rw [hcollapse]
      rw [← ihcs d (appendChild p (fullC (d + 1) c)) rest stack roots
        (by rw [appendChild_indent, hp])]
      rw [hsplit]
      simp only [buildLoop, recordAt_indent]
      rw [hpop2]

theorem buildLoop_flatten_top : ∀ ts : CommentList, ∀ roots,
    buildLoop (flattenL 0 ts) [] roots = appendL roots (fullL 0 ts) := by
  refine commList_ind _ ?_ ?_
  · intro roots
    simp [flattenL, buildLoop, flushAll, fullL, appendL_nil]
  · intro c cs ih roots
    rw [flattenL_cons]
    rw [buildLoop_flatten.1 c 0 (flattenL 0 cs) [] roots]
    simp only [popGE, List.append_nil]
    cases cs with
    | nil =>
      simp only [flattenL, buildLoop]
      have h := flush_spine.1 c 0 [] roots
      simp only [List.append_nil] at h
      rw [h]
      simp [flushAux, fullL, snocL]
    | cons c2 cs2 =>
      have hcollapse : popGE 0 (spineC 0 c) roots = ([], snocL roots (fullC 0 c)) := by
        have h := popGE_spine.1 c 0 0 [] roots (le_refl _)
        simp only [List.append_nil] at h
        rw [h]
        rfl
      have hsplit : flattenL 0 (.cons c2 cs2) =
          CommentList.cons (recordAt 0 c2)
            (appendL (flattenL (0 + 1) c2.children) (flattenL 0 cs2)) := by
        rw [flattenL_cons, flattenC_eq]
        rfl
      rw [hsplit]
      simp only [buildLoop, recordAt_indent]
      rw [hcollapse]
      have hfull : fullL 0 (.cons c (.cons c2 cs2)) =
          CommentList.cons (fullC 0 c) (fullL 0 (.cons c2 cs2)) := rfl
      rw [hfull, ← appendL_snoc]
      rw [← ih (snocL roots (fullC 0 c))]
      rw [hsplit]
      simp only [buildLoop, recordAt_indent, popGE]

theorem shape_full :
    (∀ c : Comment, ∀ d : Int, shapeEqC (fullC d c) c = true) ∧
    ∀ ts : CommentList, ∀ d : Int, shapeEqL (fullL d ts) ts = true := by
  refine commPair_ind
    (fun c => ∀ d : Int, shapeEqC (fullC d c) c = true)
    (fun ts => ∀ d : Int, shapeEqL (fullL d ts) ts = true)
    ?_ ?_ ?_
  · intro t i a x ind ch ihch d
    simp [fullC, shapeEqC, ihch]
  · intro d
    rfl
  · intro c cs ihc ihcs d
    simp [fullL, shapeEqL, ihc, ihcs]

/-! ### Deep list induction: induct on a forest through children and tail -/

theorem commListDeep_ind (Q : CommentList → Prop) (hnil : Q .nil)
    (hcons : ∀ t i a x d ch cs, Q ch → Q cs → Q (.cons (.mk t i a x d ch) cs)) :
    ∀ l, Q l := by
  refine (commPair_ind (fun c => Q c.children) Q (fun t i a x d ch h => h) hnil ?_).2
  intro c cs hc hcs
  cases c with
  | mk t i a x d ch => exact hcons t i a x d ch cs hc hcs

/-! ### Deep copy: same content, fresh tags -/

theorem countL_retag : ∀ l, ∀ b, countL (retagL b l).1 = countL l := by
  refine commListDeep_ind _ (fun _ => rfl) ?_
  intro t i a x d ch cs ihch ihcs b
  simp [retagL, countL, ihch, ihcs]

theorem retag_next : ∀ l, ∀ b, (retagL b l).2 = b + countL l := by
  refine commListDeep_ind _ (fun b => by simp [retagL, countL]) ?_
  intro t i a x d ch cs ihch ihcs b
  simp [retagL, countL, ihch, ihcs]
  omega

theorem retag_tags : ∀ l, ∀ b, tagsL (retagL b l).1 = List.range' b (countL l) := by
  refine commListDeep_ind _ (fun b => by simp [retagL, tagsL, countL]) ?_
  intro t i a x d ch cs ihch ihcs b
  simp only [retagL, tagsL, countL, ihch, ihcs, retag_next]
  rw [List.range'_append_1]
  rw [show 1 + countL ch + countL cs = (countL cs + countL ch) + 1 by omega]
  rw [List.range'_succ]

theorem eqvL_retag : ∀ l, ∀ b, eqvL (retagL b l).1 l = true := by
  refine commListDeep_ind _ (fun _ => rfl) ?_
  intro t i a x d ch cs ihch ihcs b
  simp [retagL, eqvL, eqvC, ihch, ihcs]

theorem countL_eqv : ∀ l, ∀ l2, eqvL l l2 = true → countL l = countL l2 := by
  refine commListDeep_ind _ ?_ ?_
  · intro l2 h
    cases l2 with
    | nil => rfl
    | cons c2 cs2 => simp [eqvL] at h
  · intro t i a x d ch cs ihch ihcs l2 h
    cases l2 with
    | nil => simp [eqvL] at h
    | cons c2 cs2 =>
      cases c2 with
      | mk t2 i2 a2 x2 d2 ch2 =>
        simp only [eqvL, eqvC, Bool.and_eq_true, decide_eq_true_eq, and_assoc] at h
        simp [countL, ihch ch2 h.2.2.2.2.1, ihcs cs2 h.2.2.2.2.2]

theorem renderLines_eqv : ∀ l, ∀ l2 d, eqvL l l2 = true → renderLines d l = renderLines d l2 := by
  refine commListDeep_ind _ ?_ ?_
  · intro l2 d h
    cases l2 with
    | nil => rfl
    | cons c2 cs2 => simp [eqvL] at h
  · intro t i a x ind ch cs ihch ihcs l2 d h
    cases l2 with
    | nil => simp [eqvL] at h
    | cons c2 cs2 =>
      cases c2 with
      | mk t2 i2 a2 x2 ind2 ch2 =>
        simp only [eqvL, eqvC, Bool.and_eq_true, decide_eq_true_eq, and_assoc] at h
        obtain ⟨hi, ha, hx, hd, hch, hcs⟩ := h
        have hline : commentLine d (Comment.mk t i a x ind ch) =
            commentLine d (Comment.mk t2 i2 a2 x2 ind2 ch2) := by
          simp [commentLine, descendant_count, Comment.children, Comment.author,
            Comment.text, ha, hx, countL_eqv ch ch2 hch]
        cases ch with
        | nil =>
          cases ch2 with
          | nil => simp [renderLines, hline, ihcs cs2 d hcs]
          | cons _ _ => simp [eqvL] at hch
        | cons cc ccs =>
          cases ch2 with
          | nil => simp [eqvL] at hch
          | cons h2 l2t =>
            simp only [renderLines]
            rw [hline, ihch (.cons h2 l2t) (d + 1) hch, ihcs cs2 d hcs]

theorem render_markdown_eqv (l l2 : CommentList) (h : eqvL l l2 = true) (d : Nat) :
    render_markdown l d = render_markdown l2 d := by
  unfold render_markdown
  rw [renderLines_eqv l l2 d h]

theorem render_markdown_deepcopy (l : CommentList) (d : Nat) :
    render_markdown (deepcopyL l) d = render_markdown l d :=
  render_markdown_eqv _ _ (eqvL_retag l (maxTagL l + 1)) d

/-! ### Decimal rendering: length is monotone -/

theorem digitsAux_len_pos (f n : Nat) : 0 < (digitsAux (f + 1) n).length := by
  simp only [digitsAux]
  split <;> simp

theorem digitsAux_len_mono : ∀ f1 f2 m n : Nat, m ≤ n → m < f1 → n < f2 →
    (digitsAux f1 m).length ≤ (digitsAux f2 n).length := by
  intro f1
  induction f1 with
  | zero => intro f2 m n _ hm _; omega
  | succ f1 ih =>
    intro f2 m n hmn hm hn
    cases f2 with
    | zero => omega
    | succ f2 =>
      by_cases h10 : m < 10
      · calc (digitsAux (f1 + 1) m).length = 1 := by simp [digitsAux, if_pos h10]
          _ ≤ (digitsAux (f2 + 1) n).length := digitsAux_len_pos f2 n
      · have hn10 : ¬ n < 10 := by omega
        simp only [digitsAux, if_neg h10, if_neg hn10, List.length_cons]
        have hdm : m / 10 < m := Nat.div_lt_self (by omega) (by omega)
        have hdn : n / 10 < n := Nat.div_lt_self (by omega) (by omega)
        have := ih f2 (m / 10) (n / 10) (Nat.div_le_div_right hmn) (by omega) (by omega)
        omega

theorem natStr_len_mono {m n : Nat} (h : m ≤ n) :
    (natStr m).length ≤ (natStr n).length := by
  simp only [natStr, String.length_mk, List.length_reverse]
  exact digitsAux_len_mono (m + 1) (n + 1) m n h (by omega) (by omega)

theorem countStr_len_mono {m n : Nat} (h : m ≤ n) :
    (countStr m).length ≤ (countStr n).length := by
  by_cases hm : 0 < m
  · have hn : 0 < n := by omega
    simp only [countStr, if_pos hm, if_pos hn, String.length_append]
    have := natStr_len_mono h
    omega
  · simp only [countStr, if_neg hm]
    simp

theorem lineLen_le (d : Nat) (t t2 : Nat) (i i2 a x : String) (ind ind2 : Int)
    (ch' ch : CommentList) (h : countL ch' ≤ countL ch) :
    (commentLine d (.mk t2 i2 a x ind2 ch')).length ≤
      (commentLine d (.mk t i a x ind ch)).length := by
  simp only [commentLine, descendant_count, Comment.children, Comment.author,
    Comment.text, String.length_append]
  have := countStr_len_mono h
  omega

/-! ### Joined line lists: length is monotone along `LinesLe` -/

theorem interStr_head_le (b : String) (ys : List String) :
    b.length ≤ (interStr "\n" (b :: ys)).length := by
  cases ys with
  | nil => simp [interStr]
  | cons y ys2 =>
    simp only [interStr, String.length_append]
    omega

theorem interStr_tail_le (b : String) (ys : List String) :
    (interStr "\n" ys).length ≤ (interStr "\n" (b :: ys)).length := by
  cases ys with
  | nil => simp [interStr]
  | cons y ys2 =>
    simp only [interStr, String.length_append]
    omega

theorem LinesLe_cons_left {x : String} {xs ys : List String}
    (h : LinesLe (x :: xs) ys) : ∃ y ys2, ys = y :: ys2 := by
  cases h with
  | cons hab der => exact ⟨_, _, rfl⟩
  | skip b der => exact ⟨_, _, rfl⟩

theorem interStr_mono {xs ys : List String} (h : LinesLe xs ys) :
    (interStr "\n" xs).length ≤ (interStr "\n" ys).length := by
  induction h with
  | nil l => simp [interStr]
  | @cons a b xs ys hab der ih =>
    cases xs with
    | nil =>
      calc (interStr "\n" [a]).length = a.length := by simp [interStr]
        _ ≤ b.length := hab
        _ ≤ (interStr "\n" (b :: ys)).length := interStr_head_le b ys
    | cons x xs2 =>
      obtain ⟨y, ys2, rfl⟩ := LinesLe_cons_left der
      simp only [interStr, String.length_append] at ih ⊢
      omega
  | @skip xs ys b der ih =>
    calc (interStr "\n" xs).length ≤ (interStr "\n" ys).length := ih
      _ ≤ (interStr "\n" (b :: ys)).length := interStr_tail_le b ys

theorem LinesLe_refl : ∀ l : List String, LinesLe l l := by
  intro l
  induction l with
  | nil => exact LinesLe.nil []
  | cons a xs ih => exact LinesLe.cons (le_refl _) ih

/-! ### Node counts only shrink under removal -/

theorem countL_removeFirstEqv_le : ∀ l, ∀ leaf, countL (removeFirstEqv leaf l) ≤ countL l := by
  refine commListDeep_ind _ (fun _ => le_refl _) ?_
  intro t i a x d ch cs ihch ihcs leaf
  simp only [removeFirstEqv]
  split
  · simp only [countL]; omega
  · simp only [countL]
    have := ihcs leaf
    omega

theorem countL_removeAtTag_le : ∀ l, ∀ pt leaf, countL (removeAtTag pt leaf l).1 ≤ countL l := by
  refine commListDeep_ind _ (fun _ _ => le_refl _) ?_
  intro t i a x d ch cs ihch ihcs pt leaf
  simp only [removeAtTag]
  split
  · simp only [countL]
    have := countL_removeFirstEqv_le ch leaf
    omega
  · split
    · simp only [countL]
      have := ihch pt leaf
      omega
    · simp only [countL]
      have := ihcs pt leaf
      omega

/-! ### Rendered lines only shrink under removal -/

theorem renderLines_node_le (d : Nat) (t t2 : Nat) (i i2 a x : String) (ind ind2 : Int)
    (ch' ch cs' cs : CommentList)
    (hc : countL ch' ≤ countL ch)
    (hch : LinesLe (renderLines (d + 1) ch') (renderLines (d + 1) ch))
    (hcs : LinesLe (renderLines d cs') (renderLines d cs)) :
    LinesLe (renderLines d (.cons (.mk t2 i2 a x ind2 ch') cs'))
      (renderLines d (.cons (.mk t i a x ind ch) cs)) := by
  have hline := lineLen_le d t t2 i i2 a x ind ind2 ch' ch hc
  cases ch' with
  | nil =>
    cases ch with
    | nil => exact LinesLe.cons hline hcs
    | cons b bs =>
      exact LinesLe.cons hline (LinesLe.skip _ hcs)
  | cons b' bs' =>
    cases ch with
    | nil =>
      cases b'
      simp only [countL] at hc
      omega
    | cons b bs =>
      exact LinesLe.cons hline (LinesLe.cons (interStr_mono hch) hcs)

theorem renderLines_removeFirstEqv : ∀ l, ∀ leaf d,
    LinesLe (renderLines d (removeFirstEqv leaf l)) (renderLines d l) := by
  refine commListDeep_ind _ (fun _ _ => LinesLe.nil _) ?_
  intro t i a x ind ch cs ihch ihcs leaf d
  simp only [removeFirstEqv]
  split
  · cases ch with
    | nil => exact LinesLe.skip _ (LinesLe_refl _)
    | cons b bs => exact LinesLe.skip _ (LinesLe.skip _ (LinesLe_refl _))
  · exact renderLines_node_le d t t i i a x ind ind ch ch _ cs (le_refl _)
      (LinesLe_refl _) (ihcs leaf d)

theorem renderLines_removeAtTag : ∀ l, ∀ pt leaf d,
    LinesLe (renderLines d (removeAtTag pt leaf l).1) (renderLines d l) := by
  refine commListDeep_ind _ (fun _ _ _ => LinesLe.nil _) ?_
  intro t i a x ind ch cs ihch ihcs pt leaf d
  simp only [removeAtTag]
  split
  · exact renderLines_node_le d t t i i a x ind ind _ ch cs cs
      (countL_removeFirstEqv_le ch leaf) (renderLines_removeFirstEqv ch leaf (d + 1))
      (LinesLe_refl _)
  · split
    · exact renderLines_node_le d t t i i a x ind ind _ ch cs cs
        (countL_removeAtTag_le ch pt leaf) (ihch pt leaf (d + 1)) (LinesLe_refl _)
    · exact renderLines_node_le d t t i i a x ind ind ch ch _ cs (le_refl _)
        (LinesLe_refl _) (ihcs pt leaf d)

theorem renderLines_removeCand (comments : CommentList) (cand : Comment × Option Comment)
    (d : Nat) : LinesLe (renderLines d (removeCand comments cand)) (renderLines d comments) := by
  unfold removeCand
  cases cand.2 with
  | none => exact renderLines_removeFirstEqv comments cand.1 d
  | some p => exact renderLines_removeAtTag comments p.tag cand.1 d

theorem renderLen_removeCand (comments : CommentList) (cand : Comment × Option Comment) :
    (render_markdown (removeCand comments cand) 0).length ≤
      (render_markdown comments 0).length :=
  interStr_mono (renderLines_removeCand comments cand 0)

theorem renderLen_batch : ∀ cands : List (Comment × Option Comment), ∀ comments,
    (render_markdown (batchRemove cands comments) 0).length ≤
      (render_markdown comments 0).length := by
  intro cands
  induction cands with
  | nil => intro comments; exact le_refl _
  | cons c rest ih =>
    intro comments
    calc (render_markdown (batchRemove (c :: rest) comments) 0).length
        = (render_markdown (batchRemove rest (removeCand comments c)) 0).length := rfl
      _ ≤ (render_markdown (removeCand comments c) 0).length := ih _
      _ ≤ (render_markdown comments 0).length := renderLen_removeCand comments c

theorem countL_removeCand_le (comments : CommentList) (cand : Comment × Option Comment) :
    countL (removeCand comments cand) ≤ countL comments := by
  unfold removeCand
  cases cand.2 with
  | none => exact countL_removeFirstEqv_le comments cand.1
  | some p => exact countL_removeAtTag_le comments p.tag cand.1

theorem countL_batch_le : ∀ cands : List (Comment × Option Comment), ∀ comments,
    countL (batchRemove cands comments) ≤ countL comments := by
  intro cands
  induction cands with
  | nil => intro comments; exact le_refl _
  | cons c rest ih =>
    intro comments
    calc countL (batchRemove (c :: rest) comments)
        = countL (batchRemove rest (removeCand comments c)) := rfl
      _ ≤ countL (removeCand comments c) := ih _
      _ ≤ countL comments := countL_removeCand_le comments c

/-! ### Removal really fires on a valid candidate -/

theorem eqv_refl : (∀ c, eqvC c c = true) ∧ ∀ l, eqvL l l = true := by
  refine commPair_ind (fun c => eqvC c c = true) (fun l => eqvL l l = true) ?_ rfl ?_
  · intro t i a x d ch ih
    simp [eqvC, ih]
  · intro c cs ihc ihcs
    simp [eqvL, ihc, ihcs]

theorem memL_fires : ∀ l, ∀ leaf, memL leaf l →
    countL (removeFirstEqv leaf l) < countL l := by
  refine commListDeep_ind _ (fun _ h => absurd h (fun h => h)) ?_
  intro t i a x d ch cs ihch ihcs leaf hmem
  simp only [removeFirstEqv]
  split
  · simp only [countL]; omega
  · rename_i hne
    simp only [countL]
    cases hmem with
    | inl he =>
      rw [he] at hne
      exact absurd (eqv_refl.1 _) hne
    | inr hm =>
      have := ihcs leaf hm
      omega

theorem nodeIn_tag_mem : ∀ l, ∀ p : Comment, nodeIn p l → p.tag ∈ tagsL l := by
  refine commListDeep_ind _ (fun _ h => absurd h (fun h => h)) ?_
  intro t i a x d ch cs ihch ihcs p hp
  cases hp with
  | inl he => rw [he]; simp [tagsL, Comment.tag]
  | inr h2 =>
    cases h2 with
    | inl hch => simp [tagsL, List.mem_append, ihch p hch]
    | inr hcs => simp [tagsL, List.mem_append, ihcs p hcs]

theorem removeAtTag_flag : ∀ l, ∀ pt leaf,
    (removeAtTag pt leaf l).2 = true ↔ pt ∈ tagsL l := by
  refine commListDeep_ind _ (fun pt leaf => by simp [removeAtTag, tagsL]) ?_
  intro t i a x d ch cs ihch ihcs pt leaf
  simp only [removeAtTag, tagsL]
  by_cases ht : t = pt
  · rw [if_pos ht]
    simp [ht]
  · rw [if_neg ht]
    by_cases hflag : (removeAtTag pt leaf ch).2 = true
    · rw [if_pos hflag]
      simp only [List.mem_cons, List.mem_append]
      have := (ihch pt leaf).mp hflag
      simp [this]
    · rw [if_neg hflag]
      simp only [List.mem_cons, List.mem_append]
      constructor
      · intro h
        exact Or.inr (Or.inr ((ihcs pt leaf).mp h))
      · intro h
        rcases h with h | h | h
        · exact absurd h.symm ht
        · exact absurd ((ihch pt leaf).mpr h) hflag
        · exact (ihcs pt leaf).mpr h

theorem removeAtTag_fires : ∀ l, ∀ pt leaf, NodupTags l →
    (∃ p : Comment, nodeIn p l ∧ p.tag = pt ∧ memL leaf p.children) →
    countL (removeAtTag pt leaf l).1 < countL l := by
  refine commListDeep_ind _ ?_ ?_
  · intro pt leaf _ h
    obtain ⟨p, hp, _, _⟩ := h
    exact absurd hp (fun h => h)
  · intro t i a x d ch cs ihch ihcs pt leaf hnd hex
    obtain ⟨p, hp, hpt, hleaf⟩ := hex
    have hnd' : (t :: (tagsL ch ++ tagsL cs)).Nodup := hnd
    have hhead : t ∉ tagsL ch ++ tagsL cs := (List.nodup_cons.mp hnd').1
    have htail : (tagsL ch ++ tagsL cs).Nodup := (List.nodup_cons.mp hnd').2
    have hndch : (tagsL ch).Nodup := htail.of_append_left
    have hndcs : (tagsL cs).Nodup := htail.of_append_right
    have hdisj : (tagsL ch).Disjoint (tagsL cs) := (List.nodup_append.mp htail).2.2
    simp only [removeAtTag]
    by_cases ht : t = pt
    · rw [if_pos ht]
      have hmem : memL leaf ch := by
        cases hp with
        | inl he =>
          rw [he] at hleaf
          exact hleaf
        | inr h2 =>
          cases h2 with
          | inl hch =>
            have := nodeIn_tag_mem ch p hch
            rw [hpt, ← ht] at this
            exact absurd (List.mem_append_left _ this) hhead
          | inr hcs =>
            have := nodeIn_tag_mem cs p hcs
            rw [hpt, ← ht] at this
            exact absurd (List.mem_append_right _ this) hhead
      have := memL_fires ch leaf hmem
      simp only [countL]
      omega
    · rw [if_neg ht]
      cases hp with
      | inl he =>
        rw [he] at hpt
        exact absurd hpt ht
      | inr h2 =>
        cases h2 with
        | inl hch =>
          have hflag : (removeAtTag pt leaf ch).2 = true := by
            rw [removeAtTag_flag]
            have := nodeIn_tag_mem ch p hch
            rwa [hpt] at this
          rw [if_pos hflag]
          have := ihch pt leaf hndch ⟨p, hch, hpt, hleaf⟩
          simp only [countL]
          omega
        | inr hcs =>
          have hmemcs : pt ∈ tagsL cs := by
            have := nodeIn_tag_mem cs p hcs
            rwa [hpt] at this
          have hflag : ¬ (removeAtTag pt leaf ch).2 = true := by
            rw [removeAtTag_flag]
            intro hmemch
            exact hdisj hmemch hmemcs
          rw [if_neg hflag]
          have := ihcs pt leaf hndcs ⟨p, hcs, hpt, hleaf⟩
          simp only [countL]
          omega

theorem removeCand_fires (comments : CommentList) (cand : Comment × Option Comment)
    (hnd : NodupTags comments) (hv : validCand comments cand) :
    countL (removeCand comments cand) < countL comments := by
  unfold removeCand
  cases hv with
  | inl h =>
    rw [h.1]
    exact memL_fires comments cand.1 h.2
  | inr h =>
    obtain ⟨p, hp2, hpin, hpm⟩ := h
    rw [hp2]
    exact removeAtTag_fires comments p.tag cand.1 hnd ⟨p, hpin, rfl, hpm⟩

/-! ### The leaf collection returns valid candidates -/

theorem get_all_leaves_spec : ∀ l, ∀ par pr, pr ∈ get_all_leaves l par →
    (pr.2 = par ∧ memL pr.1 l) ∨
      ∃ p : Comment, pr.2 = some p ∧ nodeIn p l ∧ memL pr.1 p.children := by
  refine commListDeep_ind _ (fun par pr h => absurd h (List.not_mem_nil _)) ?_
  intro t i a x d ch cs ihch ihcs par pr hmem
  cases ch with
  | nil =>
    simp only [get_all_leaves, List.mem_cons] at hmem
    cases hmem with
    | inl he =>
      left
      rw [he]
      exact ⟨rfl, Or.inl rfl⟩
    | inr hm =>
      cases ihcs par pr hm with
      | inl h => exact Or.inl ⟨h.1, Or.inr h.2⟩
      | inr h =>
        obtain ⟨p, h1, h2, h3⟩ := h
        exact Or.inr ⟨p, h1, Or.inr (Or.inr h2), h3⟩
  | cons c2 cs2 =>
    simp only [get_all_leaves, List.mem_append] at hmem
    cases hmem with
    | inl hm =>
      cases ihch (some (Comment.mk t i a x d (.cons c2 cs2))) pr hm with
      | inl h =>
        exact Or.inr ⟨Comment.mk t i a x d (.cons c2 cs2), h.1, Or.inl rfl, h.2⟩
      | inr h =>
        obtain ⟨p, h1, h2, h3⟩ := h
        exact Or.inr ⟨p, h1, Or.inr (Or.inl h2), h3⟩
    | inr hm =>
      cases ihcs par pr hm with
      | inl h => exact Or.inl ⟨h.1, Or.inr h.2⟩
      | inr h =>
        obtain ⟨p, h1, h2, h3⟩ := h
        exact Or.inr ⟨p, h1, Or.inr (Or.inr h2), h3⟩

theorem leaves_valid (comments : CommentList) (pr : Comment × Option Comment)
    (h : pr ∈ get_all_leaves comments none) : validCand comments pr := by
  cases get_all_leaves_spec comments none pr h with
  | inl h2 => exact Or.inl h2
  | inr h2 => exact Or.inr h2

/-! ### Tags only shrink under removal; distinctness is preserved -/

theorem tagsL_removeFirstEqv : ∀ l, ∀ leaf,
    List.Sublist (tagsL (removeFirstEqv leaf l)) (tagsL l) := by
  refine commListDeep_ind _ (fun _ => List.Sublist.refl _) ?_
  intro t i a x d ch cs ihch ihcs leaf
  simp only [removeFirstEqv]
  split
  · simp only [tagsL]
    have := List.sublist_append_right (t :: tagsL ch) (tagsL cs)
    simp only [List.cons_append] at this
    exact this
  · simp only [tagsL]
    exact ((ihcs leaf).append_left (tagsL ch)).cons₂ t

theorem tagsL_removeAtTag : ∀ l, ∀ pt leaf,
    List.Sublist (tagsL (removeAtTag pt leaf l).1) (tagsL l) := by
  refine commListDeep_ind _ (fun _ _ => List.Sublist.refl _) ?_
  intro t i a x d ch cs ihch ihcs pt leaf
  simp only [removeAtTag]
  split
  · simp only [tagsL]
    exact ((tagsL_removeFirstEqv ch leaf).append (List.Sublist.refl _)).cons₂ t
  · split
    · simp only [tagsL]
      exact ((ihch pt leaf).append (List.Sublist.refl _)).cons₂ t
    · simp only [tagsL]
      exact ((List.Sublist.refl (tagsL ch)).append (ihcs pt leaf)).cons₂ t

theorem tagsL_removeCand (comments : CommentList) (cand : Comment × Option Comment) :
    List.Sublist (tagsL (removeCand comments cand)) (tagsL comments) := by
  unfold removeCand
  cases cand.2 with
  | none => exact tagsL_removeFirstEqv comments cand.1
  | some p => exact tagsL_removeAtTag comments p.tag cand.1

theorem tagsL_batch : ∀ cands : List (Comment × Option Comment), ∀ comments,
    List.Sublist (tagsL (batchRemove cands comments)) (tagsL comments) := by
  intro cands
  induction cands with
  | nil => intro comments; exact List.Sublist.refl _
  | cons c rest ih =>
    intro comments
    exact (ih (removeCand comments c)).trans (tagsL_removeCand comments c)

theorem nodup_batch (cands : List (Comment × Option Comment)) (comments : CommentList)
    (h : NodupTags comments) : NodupTags (batchRemove cands comments) :=
  h.sublist (tagsL_batch cands comments)

/-! ### One condensation iteration: inversions -/

theorem condenseStep_done_eq (root : CommentList) (ol : Nat) (t : ℚ) (s : Int)
    (comments r : CommentList) (h : condenseStep root ol t s comments = .done r) :
    r = comments := by
  unfold condenseStep at h
  split at h
  · exact (StepResult.done.inj h).symm
  · split at h
    · exact (StepResult.done.inj h).symm
    · exact StepResult.noConfusion h

theorem condenseStep_next_strong (root : CommentList) (ol : Nat) (t : ℚ) (s : Int)
    (comments c : CommentList) (h : condenseStep root ol t s comments = .next c) :
    ∃ cands : List (Comment × Option Comment),
      c = batchRemove cands comments ∧ (∀ pr ∈ cands, validCand comments pr) ∧
        (1 ≤ s → cands ≠ []) := by
  unfold condenseStep at h
  split at h
  · exact StepResult.noConfusion h
  · split at h
    · exact StepResult.noConfusion h
    · rename_i hd tl heq
      refine ⟨(sortLeaves root (hd :: tl)).take (min s ((hd :: tl).length : Int)).toNat,
        (StepResult.next.inj h).symm, ?_, ?_⟩
      · intro pr hpr
        have h1 : pr ∈ sortLeaves root (hd :: tl) := List.take_subset _ _ hpr
        have h2 : pr ∈ (hd :: tl) := by
          unfold sortLeaves at h1
          exact (List.mem_insertionSort (leafLe root)).mp h1
        rw [← heq] at h2
        exact leaves_valid comments pr h2
      · intro hs
        have hk : 1 ≤ (min s (((hd :: tl) : List (Comment × Option Comment)).length : Int)).toNat := by
          have h1 : (1 : Int) ≤ (((hd :: tl) : List (Comment × Option Comment)).length : Int) := by
            simp
          omega
        have hslen : (sortLeaves root (hd :: tl)).length = (hd :: tl).length := by
          unfold sortLeaves
          exact List.length_insertionSort _ _
        intro hnil
        rw [List.take_eq_nil_iff] at hnil
        cases hnil with
        | inl h0 => omega
        | inr h0 =>
          rw [h0] at hslen
          simp at hslen

theorem condenseStep_next_count (root : CommentList) (ol : Nat) (t : ℚ) (s : Int)
    (comments c : CommentList) (hs : 1 ≤ s) (hnd : NodupTags comments)
    (h : condenseStep root ol t s comments = .next c) :
    countL c < countL comments := by
  obtain ⟨cands, rfl, hvalid, hne⟩ := condenseStep_next_strong root ol t s comments c h
  cases cands with
  | nil => exact absurd rfl (hne hs)
  | cons c0 rest =>
    calc countL (batchRemove (c0 :: rest) comments)
        = countL (batchRemove rest (removeCand comments c0)) := rfl
      _ ≤ countL (removeCand comments c0) := countL_batch_le rest _
      _ < countL comments :=
          removeCand_fires comments c0 hnd (hvalid c0 (List.mem_cons_self c0 rest))

theorem condenseStep_next_nodup (root : CommentList) (ol : Nat) (t : ℚ) (s : Int)
    (comments c : CommentList) (hnd : NodupTags comments)
    (h : condenseStep root ol t s comments = .next c) : NodupTags c := by
  obtain ⟨cands, rfl, _, _⟩ := condenseStep_next_strong root ol t s comments c h
  exact nodup_batch cands comments hnd

theorem condenseStep_next_tags (root : CommentList) (ol : Nat) (t : ℚ) (s : Int)
    (comments c : CommentList) (h : condenseStep root ol t s comments = .next c) :
    List.Sublist (tagsL c) (tagsL comments) := by
  obtain ⟨cands, rfl, _, _⟩ := condenseStep_next_strong root ol t s comments c h
  exact tagsL_batch cands comments

theorem condenseStep_next_render (root : CommentList) (ol : Nat) (t : ℚ) (s : Int)
    (comments c : CommentList) (h : condenseStep root ol t s comments = .next c) :
    (render_markdown c 0).length ≤ (render_markdown comments 0).length := by
  obtain ⟨cands, rfl, _, _⟩ := condenseStep_next_strong root ol t s comments c h
  exact renderLen_batch cands comments

theorem condenseStep_nil_done (root : CommentList) (ol : Nat) (t : ℚ) (s : Int) :
    condenseStep root ol t s .nil = .done .nil := by
  unfold condenseStep
  split
  · rfl
  · rfl

theorem countL_zero_nil (l : CommentList) (h : countL l = 0) : l = .nil := by
  cases l with
  | nil => rfl
  | cons c cs =>
    cases c
    simp only [countL] at h
    omega

/-! ### The condensation loop -/

theorem condenseLoopO_some : ∀ n : Nat, ∀ root ol, ∀ t : ℚ, ∀ s : Int, ∀ comments,
    1 ≤ s → NodupTags comments → countL comments ≤ n →
    (condenseLoopO root ol t s (n + 1) comments).isSome = true := by
  intro n
  induction n with
  | zero =>
    intro root ol t s comments _ _ hc
    rw [countL_zero_nil comments (by omega)]
    simp [condenseLoopO, condenseStep_nil_done]
  | succ n ih =>
    intro root ol t s comments hs hnd hc
    simp only [condenseLoopO]
    cases hstep : condenseStep root ol t s comments with
    | done r => rfl
    | next c =>
      exact ih root ol t s c hs (condenseStep_next_nodup root ol t s comments c hnd hstep)
        (by have := condenseStep_next_count root ol t s comments c hs hnd hstep; omega)

theorem renderLen_loop : ∀ fuel : Nat, ∀ root ol, ∀ t : ℚ, ∀ s : Int, ∀ comments,
    (render_markdown (condenseLoop root ol t s fuel comments) 0).length ≤
      (render_markdown comments 0).length := by
  intro fuel
  induction fuel with
  | zero => intro root ol t s comments; exact le_refl _
  | succ fuel ih =>
    intro root ol t s comments
    simp only [condenseLoop]
    cases hstep : condenseStep root ol t s comments with
    | done r => rw [condenseStep_done_eq root ol t s comments r hstep]
    | next c =>
      exact le_trans (ih root ol t s c)
        (condenseStep_next_render root ol t s comments c hstep)

theorem tagsL_loop : ∀ fuel : Nat, ∀ root ol, ∀ t : ℚ, ∀ s : Int, ∀ comments,
    List.Sublist (tagsL (condenseLoop root ol t s fuel comments)) (tagsL comments) := by
  intro fuel
  induction fuel with
  | zero => intro root ol t s comments; exact List.Sublist.refl _
  | succ fuel ih =>
    intro root ol t s comments
    simp only [condenseLoop]
    cases hstep : condenseStep root ol t s comments with
    | done r =>
      rw [condenseStep_done_eq root ol t s comments r hstep]
    | next c =>
      exact (ih root ol t s c).trans (condenseStep_next_tags root ol t s comments c hstep)

/-! ### The first iteration breaks immediately at target rate one -/

theorem weight_eq_div (c : Comment) :
    weight c = ((descendant_count c + 1) * c.text.length : ℚ) / 10 := by
  unfold weight
  rw [Rat.mkRat_eq_div]
  push_cast
  ring

theorem currentRate_eq_div (ol cl : Nat) (h : 0 < ol) :
    currentRate ol cl = (cl : ℚ) / (ol : ℚ) := by
  unfold currentRate
  rw [if_pos h, Rat.mkRat_eq_div]
  norm_num

theorem currentRate_self (n : Nat) : currentRate n n = 1 := by
  by_cases h : 0 < n
  · rw [currentRate_eq_div n n h]
    exact div_self (by exact_mod_cast Nat.pos_iff_ne_zero.mp h)
  · unfold currentRate
    rw [if_neg h]

theorem condenseStep_at_one (root : CommentList) (t : ℚ) (s : Int) (comments : CommentList)
    (ht : 1 ≤ t) :
    condenseStep root (render_markdown comments 0).length t s comments = .done comments := by
  unfold condenseStep
  rw [if_pos (by rw [currentRate_self]; exact ht)]

/-! ### The strict-indent invariant survives removal and deep copy -/

theorem childrenGT_removeFirstEqv : ∀ l, ∀ ind leaf, childrenGT ind l = true →
    childrenGT ind (removeFirstEqv leaf l) = true := by
  refine commListDeep_ind _ (fun _ _ h => h) ?_
  intro t i a x d ch cs ihch ihcs ind leaf h
  simp only [childrenGT, Bool.and_eq_true] at h
  simp only [removeFirstEqv]
  split
  · exact h.2
  · simp only [childrenGT, Bool.and_eq_true]
    exact ⟨h.1, ihcs ind leaf h.2⟩

theorem strictL_removeFirstEqv : ∀ l, ∀ leaf, strictL l = true →
    strictL (removeFirstEqv leaf l) = true := by
  refine commListDeep_ind _ (fun _ h => h) ?_
  intro t i a x d ch cs ihch ihcs leaf h
  simp only [strictL, Bool.and_eq_true] at h
  simp only [removeFirstEqv]
  split
  · exact h.2
  · simp only [strictL, Bool.and_eq_true]
    exact ⟨⟨h.1.1, h.1.2⟩, ihcs leaf h.2⟩

theorem childrenGT_removeAtTag : ∀ l, ∀ ind pt leaf, childrenGT ind l = true →
    childrenGT ind (removeAtTag pt leaf l).1 = true := by
  refine commListDeep_ind _ (fun _ _ _ h => h) ?_
  intro t i a x d ch cs ihch ihcs ind pt leaf h
  simp only [childrenGT, Bool.and_eq_true] at h
  simp only [removeAtTag]
  split
  · simp only [childrenGT, Bool.and_eq_true]
    exact ⟨h.1, h.2⟩
  · split
    · simp only [childrenGT, Bool.and_eq_true]
      exact ⟨h.1, h.2⟩
    · simp only [childrenGT, Bool.and_eq_true]
      exact ⟨h.1, ihcs ind pt leaf h.2⟩

theorem strictL_removeAtTag : ∀ l, ∀ pt leaf, strictL l = true →
    strictL (removeAtTag pt leaf l).1 = true := by
  refine commListDeep_ind _ (fun _ _ h => h) ?_
  intro t i a x d ch cs ihch ihcs pt leaf h
  simp only [strictL, Bool.and_eq_true] at h
  simp only [removeAtTag]
  split
  · simp only [strictL, Bool.and_eq_true]
    exact ⟨⟨childrenGT_removeFirstEqv ch d leaf h.1.1,
      strictL_removeFirstEqv ch leaf h.1.2⟩, h.2⟩
  · split
    · simp only [strictL, Bool.and_eq_true]
      exact ⟨⟨childrenGT_removeAtTag ch d pt leaf h.1.1, ihch pt leaf h.1.2⟩, h.2⟩
    · simp only [strictL, Bool.and_eq_true]
      exact ⟨⟨h.1.1, h.1.2⟩, ihcs pt leaf h.2⟩

theorem strictL_removeCand (comments : CommentList) (cand : Comment × Option Comment)
    (h : strictL comments = true) : strictL (removeCand comments cand) = true := by
  unfold removeCand
  cases cand.2 with
  | none => exact strictL_removeFirstEqv comments cand.1 h
  | some p => exact strictL_removeAtTag comments p.tag cand.1 h

theorem strictL_batch : ∀ cands : List (Comment × Option Comment), ∀ comments,
    strictL comments = true → strictL (batchRemove cands comments) = true := by
  intro cands
  induction cands with
  | nil => intro comments h; exact h
  | cons c rest ih =>
    intro comments h
    exact ih (removeCand comments c) (strictL_removeCand comments c h)

theorem strictL_loop : ∀ fuel : Nat, ∀ root ol, ∀ t : ℚ, ∀ s : Int, ∀ comments,
    strictL comments = true →
    strictL (condenseLoop root ol t s fuel comments) = true := by
  intro fuel
  induction fuel with
  | zero => intro root ol t s comments h; exact h
  | succ fuel ih =>
    intro root ol t s comments h
    simp only [condenseLoop]
    cases hstep : condenseStep root ol t s comments with
    | done r =>
      rw [condenseStep_done_eq root ol t s comments r hstep]
      exact h
    | next c =>
      obtain ⟨cands, rfl, _, _⟩ := condenseStep_next_strong root ol t s comments c hstep
      exact ih root ol t s _ (strictL_batch cands comments h)

theorem childrenGT_retag : ∀ l, ∀ ind : Int, ∀ b, childrenGT ind (retagL b l).1 = childrenGT ind l := by
  refine commListDeep_ind _ (fun _ _ => rfl) ?_
  intro t i a x d ch cs ihch ihcs ind b
  simp [retagL, childrenGT, ihcs]

theorem strictL_retag : ∀ l, ∀ b, strictL (retagL b l).1 = strictL l := by
  refine commListDeep_ind _ (fun _ => rfl) ?_
  intro t i a x d ch cs ihch ihcs b
  simp [retagL, strictL, childrenGT_retag, ihch, ihcs]

/-! ### The builder establishes the strict-indent invariant -/

theorem stackInv_head {p : Comment} {r : List Comment} (h : StackInv (p :: r)) :
    NodeOK p ∧ StackInv r ∧ ∀ y : Comment, ∀ r2, r = y :: r2 → y.indent < p.indent := by
  cases r with
  | nil => exact ⟨h, trivial, fun y r2 hyr => absurd hyr (by simp)⟩
  | cons y r2 =>
    obtain ⟨h1, h2, h3⟩ := h
    exact ⟨h1, h3, fun y2 r3 hyr => by rw [List.cons.injEq] at hyr; rw [← hyr.1]; exact h2⟩

theorem stackInv_cons {p : Comment} {r : List Comment} (h1 : NodeOK p) (h2 : StackInv r)
    (h3 : ∀ y : Comment, ∀ r2, r = y :: r2 → y.indent < p.indent) : StackInv (p :: r) := by
  cases r with
  | nil => exact h1
  | cons y r2 => exact ⟨h1, h3 y r2 rfl, h2⟩

theorem childrenGT_snoc {ind : Int} {l : CommentList} {c : Comment}
    (h : childrenGT ind l = true) (hc : ind < c.indent) :
    childrenGT ind (snocL l c) = true := by
  induction l using commListDeep_ind with
  | hnil =>
    cases c with
    | mk tc ic ac xc dc chc =>
      simp only [Comment.indent] at hc
      simp [snocL, appendL, childrenGT, hc]
  | hcons t i a x d ch cs ihch ihcs =>
    simp only [childrenGT, Bool.and_eq_true] at h
    simp only [snocL, appendL, childrenGT, Bool.and_eq_true] at ihcs ⊢
    exact ⟨h.1, ihcs h.2⟩

theorem strictL_snoc {l : CommentList} {c : Comment}
    (h : strictL l = true) (hc : NodeOK c) : strictL (snocL l c) = true := by
  induction l using commListDeep_ind with
  | hnil =>
    cases c with
    | mk tc ic ac xc dc chc =>
      obtain ⟨hc1, hc2⟩ := hc
      simp only [Comment.indent, Comment.children] at hc1 hc2
      simp [snocL, appendL, strictL, hc1, hc2]
  | hcons t i a x d ch cs ihch ihcs =>
    simp only [strictL, Bool.and_eq_true] at h
    simp only [snocL, appendL, strictL, Bool.and_eq_true] at ihcs ⊢
    exact ⟨h.1, ihcs h.2⟩

theorem appendChild_ok {p c : Comment} (hp : NodeOK p) (hc : NodeOK c)
    (hlt : p.indent < c.indent) : NodeOK (appendChild p c) := by
  cases p with
  | mk t i a x d ch =>
    obtain ⟨hp1, hp2⟩ := hp
    simp only [Comment.indent, Comment.children] at hp1 hp2 hlt
    constructor
    · simp only [appendChild, Comment.indent, Comment.children]
      exact childrenGT_snoc hp1 hlt
    · simp only [appendChild, Comment.children]
      exact strictL_snoc hp2 hc

theorem attachDown_inv : ∀ stack : List Comment, ∀ ind : Int, ∀ child roots,
    NodeOK child → StackInv stack →
    (∀ y : Comment, ∀ r2, stack = y :: r2 → y.indent < child.indent) →
    strictL roots = true →
    StackInv (attachDown ind child stack roots).1 ∧
      strictL (attachDown ind child stack roots).2 = true ∧
      ∀ y : Comment, ∀ r2, (attachDown ind child stack roots).1 = y :: r2 →
        y.indent < ind := by
  intro stack
  induction stack with
  | nil =>
    intro ind child roots hch _ _ hroots
    refine ⟨trivial, strictL_snoc hroots hch, ?_⟩
    intro y r2 h
    exact absurd h (by simp [attachDown])
  | cons p rest ih =>
    intro ind child roots hch hinv hadj hroots
    obtain ⟨hpok, hrest, hradj⟩ := stackInv_head hinv
    have hlt : p.indent < child.indent := hadj p rest rfl
    have hok : NodeOK (appendChild p child) := appendChild_ok hpok hch hlt
    simp only [attachDown]
    split
    · exact ih ind (appendChild p child) roots hok hrest
        (fun y r2 hyr => by rw [appendChild_indent]; exact hradj y r2 hyr) hroots
    · rename_i hstop
      refine ⟨stackInv_cons hok hrest
        (fun y r2 hyr => by rw [appendChild_indent]; exact hradj y r2 hyr), hroots, ?_⟩
      intro y r2 hyr
      rw [List.cons.injEq] at hyr
      rw [← hyr.1]
      omega

theorem popGE_inv (ind : Int) (stack : List Comment) (roots : CommentList)
    (hinv : StackInv stack) (hroots : strictL roots = true) :
    StackInv (popGE ind stack roots).1 ∧ strictL (popGE ind stack roots).2 = true ∧
      ∀ y : Comment, ∀ r2, (popGE ind stack roots).1 = y :: r2 → y.indent < ind := by
  cases stack with
  | nil =>
    refine ⟨trivial, hroots, ?_⟩
    intro y r2 h
    exact absurd h (by simp [popGE])
  | cons top rest =>
    obtain ⟨htok, hrest, hradj⟩ := stackInv_head hinv
    simp only [popGE]
    split
    · exact attachDown_inv rest ind top roots htok hrest hradj hroots
    · rename_i hstop
      refine ⟨hinv, hroots, ?_⟩
      intro y r2 hyr
      rw [List.cons.injEq] at hyr
      rw [← hyr.1]
      omega

theorem flushAux_inv : ∀ stack : List Comment, ∀ child roots,
    NodeOK child → StackInv stack →
    (∀ y : Comment, ∀ r2, stack = y :: r2 → y.indent < child.indent) →
    strictL roots = true → strictL (flushAux child stack roots) = true := by
  intro stack
  induction stack with
  | nil =>
    intro child roots hch _ _ hroots
    exact strictL_snoc hroots hch
  | cons p rest ih =>
    intro child roots hch hinv hadj hroots
    obtain ⟨hpok, hrest, hradj⟩ := stackInv_head hinv
    have hlt : p.indent < child.indent := hadj p rest rfl
    simp only [flushAux]
    exact ih (appendChild p child) roots (appendChild_ok hpok hch hlt) hrest
      (fun y r2 hyr => by rw [appendChild_indent]; exact hradj y r2 hyr) hroots

theorem flushAll_inv (stack : List Comment) (roots : CommentList)
    (hinv : StackInv stack) (hroots : strictL roots = true) :
    strictL (flushAll stack roots) = true := by
  cases stack with
  | nil => exact hroots
  | cons top rest =>
    obtain ⟨htok, hrest, hradj⟩ := stackInv_head hinv
    exact flushAux_inv rest top roots htok hrest hradj hroots

theorem buildLoop_strict : ∀ records : CommentList, ∀ stack roots,
    allChildless records = true → StackInv stack → strictL roots = true →
    strictL (buildLoop records stack roots) = true := by
  refine commList_ind _ ?_ ?_
  · intro stack roots _ hinv hroots
    exact flushAll_inv stack roots hinv hroots
  · intro c cs ih stack roots hrec hinv hroots
    cases c with
    | mk t i a x d ch =>
      cases ch with
      | cons c2 cs2 => simp [allChildless] at hrec
      | nil =>
        simp only [allChildless] at hrec
        simp only [buildLoop]
        obtain ⟨hinv2, hroots2, hpost⟩ := popGE_inv (Comment.mk t i a x d .nil).indent
          stack roots hinv hroots
        refine ih _ _ hrec ?_ hroots2
        refine stackInv_cons ⟨rfl, rfl⟩ hinv2 ?_
        intro y r2 hyr
        exact hpost y r2 hyr

theorem build_strict (records : CommentList) (h : allChildless records = true) :
    strictL (build_comment_tree records) = true :=
  buildLoop_strict records [] .nil h trivial rfl

/-! ### Freshness of the deep copy -/

theorem nodup_deepcopy (l : CommentList) : NodupTags (deepcopyL l) := by
  unfold NodupTags deepcopyL
  rw [retag_tags]
  exact List.nodup_range' _ _

theorem deepcopy_tags_fresh (l : CommentList) :
    ∀ τ ∈ tagsL (deepcopyL l), maxTagL l < τ := by
  unfold deepcopyL
  rw [retag_tags]
  intro τ hτ
  obtain ⟨i, hi, rfl⟩ := List.mem_range'.mp hτ
  omega

/-! ## The claims -/

/-- Claim C1 (code bug): with two equal-weight leaves, the deep leaf
`exB` (weight `8/10`, depth 1) and the top-level leaf `exC` (weight
`8/10`, depth 0), one condensation iteration with `step_size = 1`
removes the SHALLOW leaf `exC` and keeps the deeper `exB`, because the
depth lookup of `leaf_sort_key` searches the original forest for the
deep-copied leaf object and always returns `-1` for a non-top-level
leaf, while a top-level leaf gets depth `0`.  The claimed behaviour —
the deeper of two equal-weight leaves is spliced out first — does not
hold. -/
theorem claim_C1_shallow_leaf_removed_first :
    condenseStep exForest (render_markdown (deepcopyL exForest) 0).length 0 1
        (deepcopyL exForest) =
      .next (.cons (.mk 4 "a" "alice" "parent comment text here ok yes" 0
        (.cons (.mk 5 "b" "bob" "deepleaf" 40 .nil) .nil)) .nil) ∧
    weight exB = weight exC ∧
    find_depth exForest (.mk 5 "b" "bob" "deepleaf" 40 .nil) 0 = -1 ∧
    leaf_sort_key exForest (.mk 5 "b" "bob" "deepleaf" 40 .nil, some exA) = (mkRat 8 10, 1) ∧
    leaf_sort_key exForest (.mk 6 "c" "carol" "rootleaf" 0 .nil, none) = (mkRat 8 10, 0) := by
  refine ⟨rfl, by decide, by decide, by decide, by decide⟩

/-- Claim C2 (code bug): with `step_size = 0` on a one-comment forest
and `target_rate = 0`, every iteration of the condensation loop removes
nothing and leaves the state unchanged, so the loop never breaks: for
every fuel bound the loop is still running.  No invalid-argument error
is raised anywhere — the source has no such check — so the claimed
fail-fast behaviour does not hold and the call loops forever. -/
theorem claim_C2_step_size_zero_loops_forever :
    condenseStep exSingle (render_markdown (deepcopyL exSingle) 0).length 0 0
        (deepcopyL exSingle) = .next (deepcopyL exSingle) ∧
    ∀ fuel : Nat,
      condenseLoopO exSingle (render_markdown (deepcopyL exSingle) 0).length 0 0 fuel
        (deepcopyL exSingle) = none := by
  refine ⟨rfl, ?_⟩
  intro fuel
  induction fuel with
  | zero => rfl
  | succ fuel ih =>
    simp only [condenseLoopO]
    rw [show condenseStep exSingle (render_markdown (deepcopyL exSingle) 0).length 0 0
        (deepcopyL exSingle) = .next (deepcopyL exSingle) from rfl]
    exact ih

/-- Claim C3: structural round trip of the tree builder.  Flattening a
forest by pre-order traversal, recording each node depth as the indent
(one unit per level), and rebuilding with `build_comment_tree` yields a
forest structurally identical to the original: same nodes, same parent
and child relationships, same sibling order. -/
theorem claim_C3_structural_round_trip :
    ∀ forest : CommentList,
      shapeEqL (build_comment_tree (flattenL 0 forest)) forest = true := by
  intro forest
  unfold build_comment_tree
  rw [buildLoop_flatten_top forest .nil]
  exact shape_full.2 forest 0

/-- Claim C4: termination of condensation.  Every iteration that does
not break strictly decreases the node count (at least one node is
removed whenever the leaf set is nonempty and `step_size >= 1`), and
the whole loop terminates within `n + 1` iteration checks, where `n` is
the node count of the pruned copy. -/
theorem claim_C4_termination :
    (∀ root : CommentList, ∀ ol : Nat, ∀ t : ℚ, ∀ s : Int, ∀ comments c : CommentList,
      1 ≤ s → NodupTags comments → condenseStep root ol t s comments = .next c →
      countL c < countL comments) ∧
    ∀ root : CommentList, ∀ t : ℚ, ∀ s : Int, 1 ≤ s →
      (condense_commentsO root t s).isSome = true := by
  constructor
  · intro root ol t s comments c hs hnd h
    exact condenseStep_next_count root ol t s comments c hs hnd h
  · intro root t s hs
    show (condenseLoopO root (render_markdown (deepcopyL root) 0).length t s
      (countL (deepcopyL root) + 1) (deepcopyL root)).isSome = true
    exact condenseLoopO_some (countL (deepcopyL root)) root _ t s (deepcopyL root)
      hs (nodup_deepcopy root) (le_refl _)

/-- Witness for claim C4 at concrete inputs: a real iteration on the
copied two-leaf forest removes one node, and condensation of a single
comment down to rate zero terminates. -/
theorem claim_C4_witness :
    countL (.cons (.mk 4 "a" "alice" "parent comment text here ok yes" 0
        (.cons (.mk 5 "b" "bob" "deepleaf" 40 .nil) .nil)) .nil) <
      countL (deepcopyL exForest) ∧
    (condense_commentsO exSingle 0 1).isSome = true :=
  ⟨claim_C4_termination.1 exForest 84 0 1 (deepcopyL exForest)
      (.cons (.mk 4 "a" "alice" "parent comment text here ok yes" 0
        (.cons (.mk 5 "b" "bob" "deepleaf" 40 .nil) .nil)) .nil)
      (by decide) (by decide) rfl,
   claim_C4_termination.2 exSingle 0 1 (by decide)⟩

/-- Claim C5: monotonic size.  For any target rate below one and any
step size of at least one, the rendered markdown of the condensed
forest is no longer than the rendered markdown of the input forest.
(The bound in fact holds for every target rate and step size, since the
loop only ever removes nodes.) -/
theorem claim_C5_monotonic_size :
    ∀ root : CommentList, ∀ t : ℚ, ∀ s : Int, t < 1 → 1 ≤ s →
      (render_markdown (condense_comments root t s) 0).length ≤
        (render_markdown root 0).length := by
  intro root t s _ _
  calc (render_markdown (condense_comments root t s) 0).length
      ≤ (render_markdown (deepcopyL root) 0).length :=
        renderLen_loop (countL (deepcopyL root) + 1) root
          (render_markdown (deepcopyL root) 0).length t s (deepcopyL root)
    _ = (render_markdown root 0).length := by rw [render_markdown_deepcopy]

/-- Witness for claim C5 at a concrete input. -/
theorem claim_C5_witness :
    (render_markdown (condense_comments exForest 0 1) 0).length ≤
      (render_markdown exForest 0).length :=
  claim_C5_monotonic_size exForest 0 1 (by decide) (by decide)

/-- Claim C6: idempotence at rate one and above.  For every target rate
of at least one (one included), condensation returns a forest that
renders identically to the unmodified input, for every step size. -/
theorem claim_C6_idempotent_at_one :
    ∀ root : CommentList, ∀ t : ℚ, ∀ s : Int, 1 ≤ t →
      render_markdown (condense_comments root t s) 0 = render_markdown root 0 := by
  intro root t s ht
  have h1 : condense_comments root t s = deepcopyL root := by
    show condenseLoop root (render_markdown (deepcopyL root) 0).length t s
      (countL (deepcopyL root) + 1) (deepcopyL root) = deepcopyL root
    simp only [condenseLoop]
    rw [condenseStep_at_one root t s (deepcopyL root) ht]
  rw [h1, render_markdown_deepcopy]

/-- Witness for claim C6 at a concrete input. -/
theorem claim_C6_witness :
    render_markdown (condense_comments exForest 1 4) 0 = render_markdown exForest 0 :=
  claim_C6_idempotent_at_one exForest 1 4 (by decide)

/-- Claim C7: the engine never mutates its input.  In this pure
embedding the mutation claim is captured through object identity: the
deep copy taken on entry is structurally identical to the input
(`eqvL`), and every object in the returned forest is a fresh object
(its tag exceeds every tag of the input), so all of the splicing
performed by the loop touched only clone objects and the original
object graph is unchanged. -/
theorem claim_C7_input_not_mutated :
    ∀ root : CommentList, ∀ t : ℚ, ∀ s : Int,
      eqvL (deepcopyL root) root = true ∧
      ∀ τ ∈ tagsL (condense_comments root t s), maxTagL root < τ := by
  intro root t s
  refine ⟨eqvL_retag root _, ?_⟩
  intro τ hτ
  have hsub : List.Sublist (tagsL (condense_comments root t s))
      (tagsL (deepcopyL root)) :=
    tagsL_loop (countL (deepcopyL root) + 1) root
      (render_markdown (deepcopyL root) 0).length t s (deepcopyL root)
  exact deepcopy_tags_fresh root τ (hsub.subset hτ)

/-- Witness for claim C7 at a concrete input: tag 4 is an object of the
result of condensing at rate one, and it is fresh. -/
theorem claim_C7_witness :
    eqvL (deepcopyL exForest) exForest = true ∧ maxTagL exForest < 4 :=
  ⟨(claim_C7_input_not_mutated exForest 1 4).1,
   (claim_C7_input_not_mutated exForest 1 4).2 4 (by decide)⟩

/-- Claim C8: the strict-indent invariant.  Every forest built by the
tree builder from childless records satisfies, at every node, that each
child has an indent strictly greater than the node indent; and the
invariant is preserved by condensation (leaf removal never changes an
indent and never re-parents a node). -/
theorem claim_C8_strict_invariant :
    (∀ records : CommentList, allChildless records = true →
      strictL (build_comment_tree records) = true) ∧
    ∀ forest : CommentList, ∀ t : ℚ, ∀ s : Int, strictL forest = true →
      strictL (condense_comments forest t s) = true := by
  refine ⟨build_strict, ?_⟩
  intro forest t s h
  show strictL (condenseLoop forest (render_markdown (deepcopyL forest) 0).length t s
    (countL (deepcopyL forest) + 1) (deepcopyL forest)) = true
  refine strictL_loop _ forest _ t s (deepcopyL forest) ?_
  unfold deepcopyL
  rw [strictL_retag]
  exact h

/-- Witness for claim C8 at concrete inputs. -/
theorem claim_C8_witness :
    strictL (build_comment_tree exRecords) = true ∧
      strictL (condense_comments exForest 0 1) = true :=
  ⟨claim_C8_strict_invariant.1 exRecords (by decide),
   claim_C8_strict_invariant.2 exForest 0 1 (by decide)⟩

/-- Counterexample to claim C9 as stated: the comment `exNeg` has
indent `-1 < 0`, but its computed depth is `-1`, not `0`: Python floor
division `indent // 40` does NOT clamp negative indents to zero, and no
clamping exists anywhere in the source. -/
theorem claim_C9_counterexample :
    exNeg.indent < 0 ∧ Comment.depth exNeg = -1 ∧ Comment.depth exNeg ≠ 0 := by
  refine ⟨by decide, by decide, by decide⟩

/-- Claim C9 as amended: negative indents are not clamped — for every
comment with indent below zero, `Comment.depth` (floor division by the
indent unit) is negative, never zero. -/
theorem claim_C9_amended :
    ∀ c : Comment, c.indent < 0 → Comment.depth c < 0 := by
  intro c h
  unfold Comment.depth
  rw [Int.fdiv_eq_ediv _ (by omega)]
  omega

/-- Witness for the amended claim C9 at a concrete input. -/
theorem claim_C9_witness : exNeg.indent < 0 ∧ Comment.depth exNeg < 0 :=
  ⟨by decide, claim_C9_amended exNeg (by decide)⟩

/-- Claim C10: the builder preserves the input sequence exactly.  For
every sequence of childless records, of any indent pattern, the
pre-order traversal of the built forest visits exactly the input
records, each once, in input order. -/
theorem claim_C10_build_preserves_records :
    ∀ records : CommentList, allChildless records = true →
      preRecL (build_comment_tree records) = toListL records := by
  intro records h
  rw [build_recs records, allChildless_preRecL records h]

/-- Witness for claim C10 on a record sequence with irregular indent
jumps. -/
theorem claim_C10_witness :
    allChildless exRecords = true ∧
      preRecL (build_comment_tree exRecords) = toListL exRecords :=
  ⟨by decide, claim_C10_build_preserves_records exRecords (by decide)⟩

end HnFlat
